import Mathlib

/-!
chatbot-go: rule router, classifier router and conversation engine.

A shallow embedding of `internal/router`, `internal/actions`, `internal/engine`,
`internal/render`, `internal/validate` and `internal/bot` of the chatbot-go
repository, followed by theorems about the routing tiers, the session
operations, the action executor, flow validation, message rendering and the
per-turn loop of `ConversationEngine.Run`.

Modelling conventions
* A Go `string` holding UTF-8 text is the list of its runes (`Str`); `len` of Go
  is the UTF-8 byte length `byteLen`.
* `unicode.ToLower` is a parameter `lower : Char → Char` of every definition that
  lowercases, so the theorems hold for every case-mapping table; `asciiLower` is
  the table used on concrete ASCII inputs.
* A Go `map` is an association list read with `mapGet`; the order in which a
  `range` loop visits a map is a parameter (`order`), a permutation of the
  entries wherever a theorem depends on it.
* The flow map of Go holds pointers `*Node`. Validation is modelled on
  `LoadedBot`, whose flow values may be nil (`none`), and reading a field of a
  nil node is the outcome `Checked.panic`; the engine is modelled on `Bot`, the
  bots without nil node, which are the only ones validation lets through.
* A method that mutates the session and returns an `error` returns the new
  session on success and only the error on failure; `afterCall` gives the
  session after either outcome.
* `float64(a) / float64(b) >= 0.5` on two token counts is the same comparison on
  exact rationals.
-/

set_option autoImplicit false

namespace ChatbotGo

/-! ## Strings (package `strings` and `unicode` of the Go library) -/

/-- Go string as its sequence of runes. -/
abbrev Str := List Char

/-- Rune predicate `unicode.IsSpace`: the code points with the White_Space property. -/
def isSpace (c : Char) : Bool :=
  let n := c.toNat
  (9 ≤ n && n ≤ 13) || n == 32 || n == 133 || n == 160 || n == 5760 ||
  (8192 ≤ n && n ≤ 8202) || n == 8232 || n == 8233 || n == 8239 || n == 8287 ||
  n == 12288

/-- Number of bytes of the UTF-8 encoding of one rune. -/
def runeLen (c : Char) : Nat :=
  if c.toNat < 128 then 1 else if c.toNat < 2048 then 2 else if c.toNat < 65536 then 3 else 4

/-- Go builtin `len` on a string: its length in bytes. -/
def byteLen (s : Str) : Nat := (s.map runeLen).sum

/-- Case table for plain ASCII letters, one admissible value of the `lower` parameter. -/
def asciiLower (c : Char) : Char :=
  if 65 ≤ c.toNat ∧ c.toNat ≤ 90 then Char.ofNat (c.toNat + 32) else c

/-- Function `strings.ToLower`: every rune mapped through the case table. -/
def ToLower (lower : Char → Char) (s : Str) : Str := s.map lower

/-- Function `strings.TrimSpace`: leading and trailing white space removed. -/
def TrimSpace (s : Str) : Str :=
  ((s.dropWhile isSpace).reverse.dropWhile isSpace).reverse

/-- Function `strings.HasPrefix`. -/
def HasPrefix : Str → Str → Bool
  | _, [] => true
  | [], _ :: _ => false
  | c :: cs, p :: ps => decide (c = p) && HasPrefix cs ps

/-- Function `strings.Contains`: `substr` occurs in `s` at some position. -/
def Contains : Str → Str → Bool
  | [], substr => HasPrefix [] substr
  | c :: cs, substr => HasPrefix (c :: cs) substr || Contains cs substr

/-- Scanner of `strings.Fields`: `cur` is the field being read, in reverse. -/
def fieldsFrom : Str → Str → List Str
  | cur, [] => if cur = [] then [] else [cur.reverse]
  | cur, c :: cs =>
    if isSpace c then
      (if cur = [] then fieldsFrom [] cs else cur.reverse :: fieldsFrom [] cs)
    else fieldsFrom (c :: cur) cs

/-- Function `strings.Fields`: the maximal runs of non-space runes, in order. -/
def Fields (s : Str) : List Str := fieldsFrom [] s

deriving instance DecidableEq for Except

/-! ## Flow definitions (`internal/bot/types.go`) -/

/-- Lookup `m[key]` in a Go map, `none` when the key is absent. -/
def mapGet {β : Type} (key : Str) : List (Str × β) → Option β
  | [] => none
  | (k, v) :: rest => if k = key then some v else mapGet key rest

/-- Assignment `m[key] = value` in a Go map: the binding of `key` is replaced,
or added when there was none. -/
def mapSet {β : Type} (key : Str) (value : β) : List (Str × β) → List (Str × β)
  | [] => [(key, value)]
  | (k, v) :: rest => if k = key then (k, value) :: rest else (k, v) :: mapSet key value rest

/-- Intent of a node: `bot.Intent`. -/
structure Intent where
  Name : Str
  Examples : List Str
  Next : Str
deriving DecidableEq, Repr

/-- Input capture of a node: `bot.Input` (`Typ` is its field `Type`). -/
structure Input where
  Typ : Str
  SaveAs : Str
deriving DecidableEq, Repr

/-- Dynamic value of an action argument (`interface{}`): a string, or a value
of any other dynamic type, kept by its printed form. -/
inductive Value where
  | str (s : Str)
  | other (printed : Str)
deriving DecidableEq, Repr

/-- Action of a node: `bot.Action` (`Typ` is its field `Type`). -/
structure Action where
  Typ : Str
  Args : List (Str × Value)
deriving DecidableEq, Repr

/-- Node of the flow: `bot.Node`. -/
structure Node where
  Message : Str
  Intents : List Intent
  Input : Option Input
  Actions : List Action
  Next : Str
deriving DecidableEq, Repr

/-- Bot definition `bot.Bot` as the engine holds it, every flow value a node:
`runChatbot` builds the engine only from a bot on which `ValidateFlow` returned
`nil`, and `ValidateFlow` dereferences every flow value. The form in which a bot
reaches validation, where a flow value may be a nil `*Node`, is `LoadedBot`. -/
structure Bot where
  Name : Str
  Flows : List (Str × Node)
deriving DecidableEq, Repr

/-! ## Rule router (`internal/router/rule_router.go`) -/

/-- Errors of the routers: `ErrNoIntents`, `ErrNoMatch`, and the two wrapped
errors of `LLMRouter.Route`. -/
inductive RouteError where
  | NoIntents
  | NoMatch
  | ClassificationFailed (cause : Str)
  | InvalidIntent (name : Str)
deriving DecidableEq, Repr

/-- The two nested `range` loops shared by the three tiers: the name of the
first intent, in order, one of whose examples passes `test`. -/
def firstIntent (test : Str → Bool) : List Intent → Option Str
  | [] => none
  | intent :: rest =>
    if intent.Examples.any test then some intent.Name else firstIntent test rest

/-- Tier 1 test of one example: `strings.ToLower(example) == inputLower`. -/
def exactTest (lower : Char → Char) (inputLower ex : Str) : Bool :=
  decide (ToLower lower ex = inputLower)

/-- Tier 2 test of one example: either string contains the other. -/
def substringTest (lower : Char → Char) (inputLower ex : Str) : Bool :=
  Contains inputLower (ToLower lower ex) || Contains (ToLower lower ex) inputLower

/-- Inner loops of tier 3: the input words longer than two bytes that equal
some word of the example, each counted once (`break` after the first hit). -/
def matchCount (inputWords exampleWords : List Str) : Nat :=
  inputWords.countP fun inputWord =>
    exampleWords.any fun exampleWord =>
      decide (inputWord = exampleWord) && decide (2 < byteLen inputWord)

/-- Test `len(inputWords) > 0 && float64(matchCount)/float64(len(inputWords)) >= 0.5`. -/
def ratioTest (count words : Nat) : Bool :=
  decide (0 < words) && decide ((count : ℚ) / (words : ℚ) ≥ 1 / 2)

/-- Tier 3 test of one example. -/
def overlapTest (lower : Char → Char) (inputLower ex : Str) : Bool :=
  ratioTest (matchCount (Fields inputLower) (Fields (ToLower lower ex)))
    (Fields inputLower).length

/-- Method `RuleRouter.Route`. -/
def RuleRouter.Route (lower : Char → Char) (input : Str) (intents : List Intent) :
    Except RouteError Str :=
  if intents.length = 0 then .error .NoIntents
  else
    let inputLower := ToLower lower (TrimSpace input)
    match firstIntent (exactTest lower inputLower) intents with
    | some name => .ok name
    | none =>
      match firstIntent (substringTest lower inputLower) intents with
      | some name => .ok name
      | none =>
        match firstIntent (overlapTest lower inputLower) intents with
        | some name => .ok name
        | none => .error .NoMatch

/-! ## Classifier router (`internal/router/llm_router.go`) -/

/-- Candidate handed to the provider: `llm.Intent`. -/
structure LLMIntent where
  Name : Str
  Examples : List Str
deriving DecidableEq, Repr

/-- One call of `Provider.ClassifyIntent`: the name it returns, or its error. -/
abbrev Classifier := Str → List LLMIntent → Except Str Str

/-- Method `LLMRouter.Route`. -/
def LLMRouter.Route (classify : Classifier) (input : Str) (intents : List Intent) :
    Except RouteError Str :=
  if intents.length = 0 then .error .NoIntents
  else
    let intentList := intents.map fun intent =>
      ({ Name := intent.Name, Examples := intent.Examples } : LLMIntent)
    match classify input intentList with
    | .error err => .error (.ClassificationFailed err)
    | .ok intentName =>
      if intents.any (fun intent => decide (intent.Name = intentName)) then .ok intentName
      else .error (.InvalidIntent intentName)

/-! ## Session (`internal/engine/types.go`, `session.go`, `fsm.go`) -/

/-- Record of one exchange: `engine.Turn`. -/
structure Turn where
  Node : Str
  UserInput : Str
  Response : Str
deriving DecidableEq, Repr

/-- Session of a run: `engine.Session`. -/
structure Session where
  CurrentNode : Str
  Variables : List (Str × Str)
  History : List Turn
deriving DecidableEq, Repr

/-- Errors of the action executor. -/
inductive ActionError where
  | UnknownActionType (typ : Str)
  | InvalidArgumentType
  | MissingArgument
deriving DecidableEq, Repr

/-- Errors that end `ConversationEngine.Run`. -/
inductive RunError where
  | NodeNotFound (name : Str)
  | InvalidTransition (target : Str)
  | ReadInput
  | ActionFailed (cause : ActionError)
deriving DecidableEq, Repr

/-- Session built by `NewEngine`. -/
def NewEngine : Session :=
  { CurrentNode := "start".toList, Variables := [], History := [] }

/-- Method `Engine.SetVariable`. -/
def Engine.SetVariable (s : Session) (key value : Str) : Session :=
  { s with Variables := mapSet key value s.Variables }

/-- Method `Engine.AddTurn`. -/
def Engine.AddTurn (s : Session) (node userInput response : Str) : Session :=
  { s with History := s.History ++ [{ Node := node, UserInput := userInput, Response := response }] }

/-- Method `Engine.GetCurrentNode`. -/
def Engine.GetCurrentNode (bot : Bot) (s : Session) : Except RunError Node :=
  match mapGet s.CurrentNode bot.Flows with
  | some node => .ok node
  | none => .error (.NodeNotFound s.CurrentNode)

/-- Method `Engine.Transition`. -/
def Engine.Transition (bot : Bot) (s : Session) (nextNode : Str) : Except RunError Session :=
  if nextNode = [] then .error (.InvalidTransition nextNode)
  else
    match mapGet nextNode bot.Flows with
    | none => .error (.InvalidTransition nextNode)
    | some _ => .ok { s with CurrentNode := nextNode }

/-- Method `Engine.IsTerminal`. -/
def Engine.IsTerminal (bot : Bot) (s : Session) : Except RunError Bool :=
  match Engine.GetCurrentNode bot s with
  | .error err => .error err
  | .ok node => .ok (decide (node.Next = []) && decide (node.Intents.length = 0))

/-! ## Action executor (`internal/actions/executor.go`) -/

/-- Method `Executor.executeSetVar`; the session is returned only on success,
a failing call leaves the session it was given. -/
def Executor.executeSetVar (s : Session) (action : Action) (userInput : Str) :
    Except ActionError Session :=
  let value : Except ActionError Str :=
    match mapGet "value".toList action.Args with
    | some (.str strVal) => .ok strVal
    | some (.other _) => .error .InvalidArgumentType
    | none => .ok userInput
  match value with
  | .error err => .error err
  | .ok value =>
    match mapGet "name".toList action.Args with
    | some (.str varName) => .ok (Engine.SetVariable s varName value)
    | _ => .error .MissingArgument

/-- Method `Executor.Execute`. -/
def Executor.Execute (s : Session) (action : Action) (userInput : Str) :
    Except ActionError Session :=
  if action.Typ = "set_var".toList then Executor.executeSetVar s action userInput
  else .error (.UnknownActionType action.Typ)

/-- Loop `for _, action := range node.Actions` of `Run`: the session after the
actions that were applied, and the error of the first failing one. -/
def execActions (userInput : Str) : List Action → Session → Session × Option ActionError
  | [], s => (s, none)
  | action :: rest, s =>
    match Executor.Execute s action userInput with
    | .error err => (s, some err)
    | .ok s1 => execActions userInput rest s1

/-! ## Renderer (`internal/render/cli.go`) -/

/-- Scanner of `strings.ReplaceAll` for a non-empty `old`: `skip` runes of a
replaced occurrence are still to be dropped. -/
def replaceFrom (old new : Str) : Nat → Str → Str
  | _, [] => []
  | skip + 1, _ :: cs => replaceFrom old new skip cs
  | 0, c :: cs =>
    if HasPrefix (c :: cs) old then new ++ replaceFrom old new (old.length - 1) cs
    else c :: replaceFrom old new 0 cs

/-- Function `strings.ReplaceAll`: the non-overlapping occurrences of `old`,
found left to right, replaced by `new`; an empty `old` matches before every rune
and at the end. -/
def ReplaceAll (s old new : Str) : Str :=
  if old = [] then new ++ (s.map fun c => c :: new).flatten
  else replaceFrom old new 0 s

/-- Placeholder of a variable: `fmt.Sprintf("{{%s}}", key)`. -/
def placeholder (key : Str) : Str := "\x7b\x7b".toList ++ key ++ "\x7d\x7d".toList

/-- Method `CLIRenderer.RenderMessage`; `order` lists the bindings as the
`range` loop over the variable map visits them. -/
def CLIRenderer.RenderMessage (order : List (Str × Str) → List (Str × Str)) (node : Node)
    (s : Session) : Str :=
  (order s.Variables).foldl (fun message kv => ReplaceAll message (placeholder kv.1) kv.2)
    node.Message

/-- What the renderer writes or does on the terminal: a line printed by
`PrintMessage`, the option list of `ShowIntents`, the prompt of `ReadInput`. -/
inductive Output where
  | message (text : Str)
  | intents (shown : List Intent)
  | prompt
deriving DecidableEq, Repr

/-! ## Conversation engine (`internal/engine/engine.go`) -/

/-- Fixed parts of a `ConversationEngine`: the bot, the optional provider and
the two library behaviours the model leaves open. `llmProvider` and `order` take
the number of input lines still unread, so that a provider or a map traversal
may answer differently at every turn. -/
structure ConversationEngine where
  bot : Bot
  llmProvider : Option (Nat → Classifier)
  lower : Char → Char
  order : Nat → List (Str × Str) → List (Str × Str)

/-- Mutable state of a run: the session, the lines not yet read from standard
input, and what has been written so far. -/
structure World where
  session : Session
  stdin : List Str
  stdout : List Output
deriving DecidableEq, Repr

/-- How one pass through the body of the `for` loop ends: `loop` for the next
pass, `done` when `Run` returns. -/
inductive Step where
  | loop
  | done (result : Except RunError Unit)
deriving DecidableEq, Repr

/-- The notice printed when neither router names an intent. -/
def notUnderstood : Str := "I didn't understand that. Please try again.".toList

/-- Method `CLIRenderer.ReadInput`: prints the prompt, then reads one line and
trims it; fails when standard input is exhausted. -/
def CLIRenderer.ReadInput (w : World) : World × Option Str :=
  match w.stdin with
  | [] => ({ w with stdout := w.stdout ++ [.prompt] }, none)
  | line :: rest =>
    ({ w with stdin := rest, stdout := w.stdout ++ [.prompt] }, some (TrimSpace line))

/-- Lines 72 to 88 of `Run`: the input-capture branch, ending in `continue`. -/
def captureBranch (ce : ConversationEngine) (node : Node) (input : Input) (userInput : Str)
    (w : World) : World × Step :=
  let s1 := Engine.SetVariable w.session input.SaveAs userInput
  match execActions userInput node.Actions s1 with
  | (s2, some err) => ({ w with session := s2 }, .done (.error (.ActionFailed err)))
  | (s2, none) =>
    if node.Next ≠ [] then
      match Engine.Transition ce.bot s2 node.Next with
      | .error err => ({ w with session := s2 }, .done (.error err))
      | .ok s3 => ({ w with session := s3 }, .loop)
    else ({ w with session := s2 }, .loop)

/-- Lines 93 to 107 of `Run`: the rule router, then the classifier router when a
provider is set; `none` when neither names an intent. -/
def routeInput (ce : ConversationEngine) (clock : Nat) (userInput : Str) (intents : List Intent) :
    Option Str :=
  match RuleRouter.Route ce.lower userInput intents with
  | .ok intentName => some intentName
  | .error _ =>
    match ce.llmProvider with
    | some provider =>
      match LLMRouter.Route (provider clock) userInput intents with
      | .ok intentName => some intentName
      | .error _ => none
    | none => none

/-- Lines 110 to 126 of `Run`: the loop that looks for the intent named
`intentName`, runs the node actions and follows the intent. -/
def followIntent (ce : ConversationEngine) (node : Node) (intentName userInput : Str)
    (s : Session) : Session × Option RunError :=
  match node.Intents.find? (fun intent => decide (intent.Name = intentName)) with
  | none => (s, none)
  | some intent =>
    match execActions userInput node.Actions s with
    | (s1, some err) => (s1, some (.ActionFailed err))
    | (s1, none) =>
      if intent.Next ≠ [] then
        match Engine.Transition ce.bot s1 intent.Next with
        | .error err => (s1, some err)
        | .ok s2 => (s2, none)
      else (s1, none)

/-- Lines 128 to 139 of `Run`: the branch of a node without intents that has a
`Next`. -/
def plainBranch (ce : ConversationEngine) (node : Node) (userInput : Str) (s : Session) :
    Session × Option RunError :=
  match execActions userInput node.Actions s with
  | (s1, some err) => (s1, some (.ActionFailed err))
  | (s1, none) =>
    match Engine.Transition ce.bot s1 node.Next with
    | .error err => (s1, some err)
    | .ok s2 => (s2, none)

/-- Lines 70 to 143 of `Run`: what the loop body does with the line read. -/
def handleInput (ce : ConversationEngine) (clock : Nat) (node : Node) (message userInput : Str)
    (w : World) : World × Step :=
  match node.Input with
  | some input => captureBranch ce node input userInput w
  | none =>
    if node.Intents.length > 0 then
      match routeInput ce clock userInput node.Intents with
      | none => ({ w with stdout := w.stdout ++ [.message notUnderstood] }, .loop)
      | some intentName =>
        match followIntent ce node intentName userInput w.session with
        | (s1, some err) => ({ w with session := s1 }, .done (.error err))
        | (s1, none) =>
          ({ w with session := Engine.AddTurn s1 node.Message userInput message }, .loop)
    else if node.Next ≠ [] then
      match plainBranch ce node userInput w.session with
      | (s1, some err) => ({ w with session := s1 }, .done (.error err))
      | (s1, none) =>
        ({ w with session := Engine.AddTurn s1 node.Message userInput message }, .loop)
    else ({ w with session := Engine.AddTurn w.session node.Message userInput message }, .loop)

/-- One pass through the body of the `for` loop of `ConversationEngine.Run`. -/
def iteration (ce : ConversationEngine) (w : World) : World × Step :=
  let clock := w.stdin.length
  match Engine.GetCurrentNode ce.bot w.session with
  | .error err => (w, .done (.error err))
  | .ok node =>
    let message := CLIRenderer.RenderMessage (ce.order clock) node w.session
    let w1 := { w with stdout := w.stdout ++ [.message message] }
    match Engine.IsTerminal ce.bot w1.session with
    | .error err => (w1, .done (.error err))
    | .ok true => (w1, .done (.ok ()))
    | .ok false =>
      let w2 := if node.Intents.length > 0 then
        { w1 with stdout := w1.stdout ++ [.intents node.Intents] } else w1
      match CLIRenderer.ReadInput w2 with
      | (w3, none) => (w3, .done (.error .ReadInput))
      | (w3, some userInput) => handleInput ce clock node message userInput w3

/-- The `for` loop of `Run`, cut after `fuel` passes: the final state and the
value `Run` returned, `none` when the passes ran out. -/
def runLoop (ce : ConversationEngine) : Nat → World → World × Option (Except RunError Unit)
  | 0, w => (w, none)
  | fuel + 1, w =>
    match iteration ce w with
    | (w1, .done result) => (w1, some result)
    | (w1, .loop) => runLoop ce fuel w1

/-- Method `ConversationEngine.Run`: every pass that does not return reads one
line, so one pass more than there are lines is enough. -/
def ConversationEngine.Run (ce : ConversationEngine) (w : World) :
    World × Option (Except RunError Unit) :=
  runLoop ce (w.stdin.length + 1) w

/-- The session after a call of a method that writes the session only on the
path on which it returns `nil`, paired with the error returned: a failing call
leaves the session it was given. -/
def afterCall {ε : Type} (s : Session) (r : Except ε Session) : Session × Option ε :=
  match r with
  | .ok s1 => (s1, none)
  | .error err => (s, some err)

/-! ## Validation (`internal/bot/schema.go`, `internal/validate/flow.go`) -/

/-- Bot definition `bot.Bot` as the loader hands it to validation: the flow
values are the pointers `*Node` of the Go map, `none` for the nil pointer that a
node with an empty body in the YAML file loads as. -/
structure LoadedBot where
  Name : Str
  Flows : List (Str × Option Node)
deriving DecidableEq, Repr

/-- The loaded form of a bot none of whose flow values is nil. -/
def Bot.loaded (b : Bot) : LoadedBot :=
  { Name := b.Name, Flows := b.Flows.map fun p => (p.1, some p.2) }

/-- Errors of `ValidateBasic` (the three `ErrInvalidBot` messages) and of
`ValidateFlow` (the two dangling references). -/
inductive ValidationError where
  | NameRequired
  | NoFlowNode
  | NoStartNode
  | DanglingNext (nodeName next : Str)
  | DanglingIntentNext (nodeName intentName next : Str)
deriving DecidableEq, Repr

/-- What a call of `ValidateFlow` comes to: it returns `nil`, it returns an
error, or it reads a field of a nil `*Node` and the Go runtime panics, so that
nothing is returned. -/
inductive Checked where
  | ok
  | error (err : ValidationError)
  | panic
deriving DecidableEq, Repr

/-- Method `Bot.ValidateBasic`; it looks at the keys of the flow map only. -/
def Bot.ValidateBasic (b : LoadedBot) : Except ValidationError Unit :=
  if b.Name = [] then .error .NameRequired
  else if b.Flows.length = 0 then .error .NoFlowNode
  else
    match mapGet "start".toList b.Flows with
    | none => .error .NoStartNode
    | some _ => .ok ()

/-- Inner loop of `ValidateFlow` over the intents of one node. -/
def checkIntents (b : LoadedBot) (nodeName : Str) :
    List Intent → Except ValidationError Unit
  | [] => .ok ()
  | intent :: rest =>
    if intent.Next ≠ [] ∧ mapGet intent.Next b.Flows = none then
      .error (.DanglingIntentNext nodeName intent.Name intent.Next)
    else checkIntents b nodeName rest

/-- Outer loop of `ValidateFlow` over the flow values, in the order given; the
first statement of the body reads `node.Next`, which panics on a nil node. -/
def checkNodes (b : LoadedBot) : List (Str × Option Node) → Checked
  | [] => .ok
  | (_, none) :: _ => .panic
  | (nodeName, some node) :: rest =>
    if node.Next ≠ [] ∧ mapGet node.Next b.Flows = none then
      .error (.DanglingNext nodeName node.Next)
    else
      match checkIntents b nodeName node.Intents with
      | .error err => .error err
      | .ok _ => checkNodes b rest

/-- Function `ValidateFlow`; `order` lists the flow values as the `range` loop
over the flow map visits them. -/
def ValidateFlow (order : List (Str × Option Node) → List (Str × Option Node))
    (b : LoadedBot) : Checked :=
  match Bot.ValidateBasic b with
  | .error err => .error err
  | .ok _ => checkNodes b (order b.Flows)

/-! ## Interpolation as the spec words it -/

/-- A string without the two brace characters. -/
abbrev braceFree (s : Str) : Prop := ∀ c ∈ s, c ≠ '\x7b' ∧ c ≠ '\x7d'

/-- Piece of a message template: literal text, or the placeholder of a variable. -/
inductive Piece where
  | text (t : Str)
  | var (key : Str)
deriving DecidableEq, Repr

/-- The characters a piece stands for in the template. -/
def Piece.source : Piece → Str
  | .text t => t
  | .var key => placeholder key

/-- The text or the variable name of a piece. -/
def Piece.body : Piece → Str
  | .text t => t
  | .var key => key

/-- The message template written by a list of pieces. -/
def templateOf (pieces : List Piece) : Str := (pieces.map Piece.source).flatten

/-- Spec 4.5 for one piece: a placeholder whose variable is bound stands for the
value, one without a binding is left verbatim, text is kept. -/
def Piece.value (vars : List (Str × Str)) : Piece → Str
  | .text t => t
  | .var key =>
    match mapGet key vars with
    | some value => value
    | none => placeholder key

/-- Spec 4.5: every placeholder of a bound variable replaced by its value, once,
in one pass over the template. -/
def interpolate (vars : List (Str × Str)) (pieces : List Piece) : Str :=
  (pieces.map (Piece.value vars)).flatten

/-- One binding applied to one piece: the placeholder of `key` becomes the text
`value`. -/
def Piece.bind (key value : Str) : Piece → Piece
  | .text t => .text t
  | .var k => if k = key then .text value else .var k

/-! ## Inputs used in the examples -/

/-- Intents A: ["x"] and B: ["yx"] of the spec, B first. -/
def intentsBA : List Intent :=
  [{ Name := "B".toList, Examples := ["yx".toList], Next := [] },
   { Name := "A".toList, Examples := ["x".toList], Next := [] }]

/-- One intent whose only example shares the word "flight" with "book a flight". -/
def intentsFlightSoon : List Intent :=
  [{ Name := "travel".toList, Examples := ["flight soon".toList], Next := [] }]

/-- Two intents, the second sharing two words with "book a flight". -/
def intentsBooking : List Intent :=
  [{ Name := "weather".toList, Examples := ["sunny today".toList], Next := [] },
   { Name := "travel".toList, Examples := ["book flight now".toList], Next := [] }]

/-- Intent list of the node `start` of the greeting flow. -/
def greetIntents : List Intent :=
  [{ Name := "greet".toList, Examples := ["hello".toList, "hi".toList],
     Next := "farewell".toList }]

/-- The greeting flow of the spec: `start` with one intent leading to `farewell`. -/
def greetBot : Bot :=
  { Name := "greeter".toList,
    Flows :=
      [("start".toList,
          { Message := "Hi!".toList, Intents := greetIntents, Input := none, Actions := [],
            Next := [] }),
       ("farewell".toList,
          { Message := "Bye".toList, Intents := [], Input := none, Actions := [],
            Next := [] })] }

/-- Engine on the greeting flow without a provider (`llmProvider == nil`). -/
def greetEngine : ConversationEngine :=
  { bot := greetBot, llmProvider := none, lower := asciiLower, order := fun _ vars => vars }

/-- A provider that answers "greet" to every call. -/
def alwaysGreet : Classifier := fun _ _ => .ok "greet".toList

/-- A flow whose `start` node captures the input as `name` and goes on to `done`. -/
def nameBot : Bot :=
  { Name := "asker".toList,
    Flows :=
      [("start".toList,
          { Message := "Name?".toList, Intents := [],
            Input := some { Typ := "text".toList, SaveAs := "name".toList }, Actions := [],
            Next := "done".toList }),
       ("done".toList,
          { Message := "Bye \x7b\x7bname\x7d\x7d".toList, Intents := [], Input := none,
            Actions := [], Next := [] })] }

/-- Engine on the capture flow without a provider. -/
def nameEngine : ConversationEngine :=
  { bot := nameBot, llmProvider := none, lower := asciiLower, order := fun _ vars => vars }

/-- The greeting flow under an empty bot name, as loaded. -/
def namelessBot : LoadedBot := { greetBot.loaded with Name := [] }

/-- A named bot whose only flow value, under the key `start`, is nil: what the
loader builds from a `start` node with an empty body. -/
def nilStartBot : LoadedBot := { Name := "n".toList, Flows := [("start".toList, none)] }

/-- A `set_var` action that stores the raw input under `city`. -/
def setCity : Action :=
  { Typ := "set_var".toList, Args := [("name".toList, .str "city".toList)] }

/-- A `set_var` action that stores the fixed value "gold" under `tier`. -/
def setTier : Action :=
  { Typ := "set_var".toList,
    Args := [("name".toList, .str "tier".toList), ("value".toList, .str "gold".toList)] }

/-- A `set_var` action whose `value` is not a string. -/
def setBadValue : Action :=
  { Typ := "set_var".toList,
    Args := [("name".toList, .str "n".toList), ("value".toList, .other "42".toList)] }

/-- A flow whose `start` node runs three actions, the second of which fails. -/
def actionBot : Bot :=
  { Name := "actor".toList,
    Flows :=
      [("start".toList,
          { Message := "City?".toList, Intents := [], Input := none,
            Actions := [setCity, setBadValue, setTier], Next := "done".toList }),
       ("done".toList,
          { Message := "Bye".toList, Intents := [], Input := none, Actions := [],
            Next := [] })] }

/-- Engine on the action flow without a provider. -/
def actionEngine : ConversationEngine :=
  { bot := actionBot, llmProvider := none, lower := asciiLower, order := fun _ vars => vars }

/-- The action flow without its `done` node, to which `start` still refers, as
loaded. -/
def danglingBot : LoadedBot :=
  { actionBot.loaded with Flows := actionBot.loaded.Flows.take 1 }

/-- The same broken flow with a nil flow value under the key `gap` in front. -/
def brokenBot : LoadedBot :=
  { danglingBot with Flows := ("gap".toList, none) :: danglingBot.Flows }

/-- The template "Hello {{name}}, age {{age}}" of the spec, as pieces. -/
def helloPieces : List Piece :=
  [.text "Hello ".toList, .var "name".toList, .text ", age ".toList, .var "age".toList]

/-- A node whose message is the template of `helloPieces`. -/
def helloNode : Node :=
  { Message := "Hello \x7b\x7bname\x7d\x7d, age \x7b\x7bage\x7d\x7d".toList, Intents := [],
    Input := none, Actions := [], Next := [] }

/-- A node whose message is the single placeholder of `a`. -/
def nestedNode : Node :=
  { Message := "\x7b\x7ba\x7d\x7d".toList, Intents := [], Input := none, Actions := [],
    Next := [] }

/-- A session that binds `a` to the placeholder of `b`, and `b` to "x". -/
def nestedSession : Session :=
  { NewEngine with
    Variables := [("a".toList, "\x7b\x7bb\x7d\x7d".toList), ("b".toList, "x".toList)] }

/-! ## Library lemmas -/

theorem hasPrefix_iff (s p : Str) : HasPrefix s p = true ↔ p <+: s := by
  induction s generalizing p with
  | nil => cases p <;> simp [HasPrefix]
  | cons c cs ih =>
    cases p with
    | nil => simp [HasPrefix]
    | cons q qs =>
      simp only [HasPrefix, Bool.and_eq_true, decide_eq_true_eq, ih, List.cons_prefix_cons]
      constructor
      · rintro ⟨h1, h2⟩; exact ⟨h1.symm, h2⟩
      · rintro ⟨h1, h2⟩; exact ⟨h1.symm, h2⟩

theorem contains_iff (s sub : Str) : Contains s sub = true ↔ sub <:+: s := by
  induction s with
  | nil =>
    simp only [Contains, hasPrefix_iff, List.prefix_nil, List.infix_nil]
  | cons c cs ih =>
    simp only [Contains, Bool.or_eq_true, hasPrefix_iff, ih, List.infix_cons_iff]

theorem length_le_byteLen (w : Str) : w.length ≤ byteLen w := by
  induction w with
  | nil => simp [byteLen]
  | cons c cs ih =>
    have hc : 1 ≤ runeLen c := by
      unfold runeLen
      split_ifs <;> omega
    simp only [byteLen, List.map_cons, List.sum_cons, List.length_cons] at ih ⊢
    omega

theorem ratioTest_iff (count words : Nat) :
    ratioTest count words = true ↔ 0 < words ∧ words ≤ 2 * count := by
  unfold ratioTest
  simp only [Bool.and_eq_true, decide_eq_true_eq, ge_iff_le]
  constructor
  · rintro ⟨hw, h⟩
    refine ⟨hw, ?_⟩
    have hq : (0 : ℚ) < words := by exact_mod_cast hw
    rw [le_div_iff₀ hq] at h
    have h2 : (words : ℚ) ≤ 2 * count := by linarith
    exact_mod_cast h2
  · rintro ⟨hw, h⟩
    refine ⟨hw, ?_⟩
    have hq : (0 : ℚ) < words := by exact_mod_cast hw
    rw [le_div_iff₀ hq]
    have h2 : (words : ℚ) ≤ 2 * count := by exact_mod_cast h
    linarith

theorem matchCount_eq (inputWords exampleWords : List Str) :
    matchCount inputWords exampleWords =
      (inputWords.filter fun w => decide (2 < byteLen w) && decide (w ∈ exampleWords)).length := by
  unfold matchCount
  rw [List.countP_eq_length_filter]
  congr 1
  apply List.filter_congr
  intro w _
  induction exampleWords with
  | nil => simp
  | cons e es ih =>
    simp only [List.any_cons, ih, List.mem_cons]
    by_cases h1 : w = e
    · subst h1
      by_cases h2 : 2 < byteLen w <;> simp [h2]
    · by_cases h2 : 2 < byteLen w <;> simp [h1, h2]

/-! ## Lemmas on the tier loops -/

theorem firstIntent_eq_none (test : Str → Bool) (intents : List Intent) :
    firstIntent test intents = none ↔ ∀ it ∈ intents, ∀ e ∈ it.Examples, test e = false := by
  induction intents with
  | nil => simp [firstIntent]
  | cons it rest ih =>
    by_cases h : it.Examples.any test = true
    · simp only [firstIntent, h, if_true, List.mem_cons, forall_eq_or_imp]
      constructor
      · intro h0; cases h0
      · rintro ⟨h1, _⟩
        obtain ⟨e, he, hte⟩ := List.any_eq_true.mp h
        rw [h1 e he] at hte; cases hte
    · have hf : it.Examples.any test = false := by simpa using h
      simp only [firstIntent, hf, ih, List.mem_cons, forall_eq_or_imp, Bool.false_eq_true,
        if_false]
      constructor
      · intro h2
        refine ⟨?_, h2⟩
        intro e he
        by_contra hne
        exact h (List.any_eq_true.mpr ⟨e, he, by simpa using hne⟩)
      · rintro ⟨_, h2⟩; exact h2

theorem firstIntent_first (test : Str → Bool) (intents : List Intent)
    (h : ∃ it ∈ intents, ∃ e ∈ it.Examples, test e = true) :
    ∃ pre it post, intents = pre ++ it :: post ∧ (∃ e ∈ it.Examples, test e = true) ∧
      (∀ j ∈ pre, ∀ e ∈ j.Examples, test e = false) ∧
      firstIntent test intents = some it.Name := by
  induction intents with
  | nil => obtain ⟨it, hit, _⟩ := h; cases hit
  | cons a rest ih =>
    by_cases ha : a.Examples.any test = true
    · refine ⟨[], a, rest, rfl, ?_, ?_, ?_⟩
      · obtain ⟨e, he, hte⟩ := List.any_eq_true.mp ha
        exact ⟨e, he, hte⟩
      · intro j hj; cases hj
      · simp [firstIntent, ha]
    · have hrest : ∃ it ∈ rest, ∃ e ∈ it.Examples, test e = true := by
        obtain ⟨it, hit, e, he, hte⟩ := h
        rcases List.mem_cons.mp hit with rfl | hit
        · exact absurd (List.any_eq_true.mpr ⟨e, he, hte⟩) ha
        · exact ⟨it, hit, e, he, hte⟩
      obtain ⟨pre, it, post, hsplit, hex, hpre, hres⟩ := ih hrest
      refine ⟨a :: pre, it, post, by rw [hsplit]; rfl, hex, ?_, ?_⟩
      · intro j hj e he
        rcases List.mem_cons.mp hj with rfl | hj
        · by_contra hne
          exact ha (List.any_eq_true.mpr ⟨e, he, by simpa using hne⟩)
        · exact hpre j hj e he
      · simp [firstIntent, ha, hres]

theorem exactTest_iff (lower : Char → Char) (inputLower ex : Str) :
    exactTest lower inputLower ex = true ↔ ToLower lower ex = inputLower := by
  simp [exactTest]

theorem substringTest_iff (lower : Char → Char) (inputLower ex : Str) :
    substringTest lower inputLower ex = true ↔
      (ToLower lower ex <:+: inputLower ∨ inputLower <:+: ToLower lower ex) := by
  simp [substringTest, contains_iff]

theorem overlapTest_iff (lower : Char → Char) (inputLower ex : Str) :
    overlapTest lower inputLower ex = true ↔
      (0 < (Fields inputLower).length ∧
        (Fields inputLower).length ≤
          2 * ((Fields inputLower).filter fun w =>
            decide (2 < byteLen w) && decide (w ∈ Fields (ToLower lower ex))).length) := by
  simp only [overlapTest, ratioTest_iff, matchCount_eq]

theorem firstIntent_some_ne_nil (test : Str → Bool) (intents : List Intent) (name : Str)
    (h : firstIntent test intents = some name) : intents.length ≠ 0 := by
  cases intents with
  | nil => simp [firstIntent] at h
  | cons a rest => simp

theorem route_of_exact (lower : Char → Char) (input : Str) (intents : List Intent) (name : Str)
    (h1 : firstIntent (exactTest lower (ToLower lower (TrimSpace input))) intents = some name) :
    RuleRouter.Route lower input intents = .ok name := by
  have hne := firstIntent_some_ne_nil _ _ _ h1
  simp [RuleRouter.Route, hne, h1]

theorem route_of_substring (lower : Char → Char) (input : Str) (intents : List Intent)
    (name : Str)
    (h1 : firstIntent (exactTest lower (ToLower lower (TrimSpace input))) intents = none)
    (h2 : firstIntent (substringTest lower (ToLower lower (TrimSpace input))) intents
      = some name) :
    RuleRouter.Route lower input intents = .ok name := by
  have hne := firstIntent_some_ne_nil _ _ _ h2
  simp [RuleRouter.Route, hne, h1, h2]

theorem route_of_overlap (lower : Char → Char) (input : Str) (intents : List Intent)
    (name : Str)
    (h1 : firstIntent (exactTest lower (ToLower lower (TrimSpace input))) intents = none)
    (h2 : firstIntent (substringTest lower (ToLower lower (TrimSpace input))) intents = none)
    (h3 : firstIntent (overlapTest lower (ToLower lower (TrimSpace input))) intents
      = some name) :
    RuleRouter.Route lower input intents = .ok name := by
  have hne := firstIntent_some_ne_nil _ _ _ h3
  simp [RuleRouter.Route, hne, h1, h2, h3]

theorem route_of_none (lower : Char → Char) (input : Str) (intents : List Intent)
    (hne : intents ≠ [])
    (h1 : firstIntent (exactTest lower (ToLower lower (TrimSpace input))) intents = none)
    (h2 : firstIntent (substringTest lower (ToLower lower (TrimSpace input))) intents = none)
    (h3 : firstIntent (overlapTest lower (ToLower lower (TrimSpace input))) intents = none) :
    RuleRouter.Route lower input intents = .error .NoMatch := by
  have hlen : intents.length ≠ 0 := by
    cases intents with
    | nil => exact absurd rfl hne
    | cons a rest => simp
  simp [RuleRouter.Route, hlen, h1, h2, h3]

/-! ## The rule router -/

/-- C1. Exact-match precedence: when some example is case-insensitively equal to
the trimmed input, `Route` returns the name of the first intent, in authoring
order, that has such an example, whatever the substring tier would say. -/
theorem route_exact_first (lower : Char → Char) (input : Str) (intents : List Intent)
    (h : ∃ it ∈ intents, ∃ e ∈ it.Examples,
      ToLower lower e = ToLower lower (TrimSpace input)) :
    ∃ pre it post, intents = pre ++ it :: post ∧
      (∃ e ∈ it.Examples, ToLower lower e = ToLower lower (TrimSpace input)) ∧
      (∀ j ∈ pre, ∀ e ∈ j.Examples, ToLower lower e ≠ ToLower lower (TrimSpace input)) ∧
      RuleRouter.Route lower input intents = .ok it.Name := by
  have h0 : ∃ it ∈ intents, ∃ e ∈ it.Examples,
      exactTest lower (ToLower lower (TrimSpace input)) e = true := by
    obtain ⟨it, hit, e, he, hee⟩ := h
    exact ⟨it, hit, e, he, (exactTest_iff _ _ _).mpr hee⟩
  obtain ⟨pre, it, post, hsplit, hex, hpre, hres⟩ := firstIntent_first _ _ h0
  refine ⟨pre, it, post, hsplit, ?_, ?_, route_of_exact _ _ _ _ hres⟩
  · obtain ⟨e, he, hee⟩ := hex
    exact ⟨e, he, (exactTest_iff _ _ _).mp hee⟩
  · intro j hj e he heq
    have := hpre j hj e he
    rw [(exactTest_iff _ _ _).mpr heq] at this
    cases this

/-- C1 at the intents B: ["yx"], A: ["x"] and the input "x": the result is A. -/
theorem route_exact_first_witness :
    (∃ it ∈ intentsBA, ∃ e ∈ it.Examples,
      ToLower asciiLower e = ToLower asciiLower (TrimSpace "x".toList)) ∧
    (∃ pre it post, intentsBA = pre ++ it :: post ∧
      (∃ e ∈ it.Examples, ToLower asciiLower e = ToLower asciiLower (TrimSpace "x".toList)) ∧
      (∀ j ∈ pre, ∀ e ∈ j.Examples,
        ToLower asciiLower e ≠ ToLower asciiLower (TrimSpace "x".toList)) ∧
      RuleRouter.Route asciiLower "x".toList intentsBA = .ok it.Name) ∧
    RuleRouter.Route asciiLower "x".toList intentsBA = .ok "A".toList ∧
    RuleRouter.Route asciiLower "x".toList intentsBA.reverse = .ok "A".toList :=
  have h : ∃ it ∈ intentsBA, ∃ e ∈ it.Examples,
      ToLower asciiLower e = ToLower asciiLower (TrimSpace "x".toList) :=
    ⟨{ Name := "A".toList, Examples := ["x".toList], Next := [] }, by decide,
      "x".toList, by decide, by decide⟩
  ⟨h, route_exact_first asciiLower "x".toList intentsBA h, by decide, by decide⟩

/-- C2. Substring tier: when no example equals the input case-insensitively and
some example contains the lowercased trimmed input or is contained in it, `Route`
returns the name of the first intent, in authoring order, with such an example. -/
theorem route_substring_first (lower : Char → Char) (input : Str) (intents : List Intent)
    (h1 : ∀ it ∈ intents, ∀ e ∈ it.Examples,
      ToLower lower e ≠ ToLower lower (TrimSpace input))
    (h2 : ∃ it ∈ intents, ∃ e ∈ it.Examples,
      (ToLower lower e <:+: ToLower lower (TrimSpace input) ∨
        ToLower lower (TrimSpace input) <:+: ToLower lower e)) :
    ∃ pre it post, intents = pre ++ it :: post ∧
      (∃ e ∈ it.Examples,
        (ToLower lower e <:+: ToLower lower (TrimSpace input) ∨
          ToLower lower (TrimSpace input) <:+: ToLower lower e)) ∧
      (∀ j ∈ pre, ∀ e ∈ j.Examples,
        ¬ (ToLower lower e <:+: ToLower lower (TrimSpace input) ∨
          ToLower lower (TrimSpace input) <:+: ToLower lower e)) ∧
      RuleRouter.Route lower input intents = .ok it.Name := by
  have hnone : firstIntent (exactTest lower (ToLower lower (TrimSpace input))) intents
      = none := by
    rw [firstIntent_eq_none]
    intro it hit e he
    have := h1 it hit e he
    simpa [exactTest] using this
  have h0 : ∃ it ∈ intents, ∃ e ∈ it.Examples,
      substringTest lower (ToLower lower (TrimSpace input)) e = true := by
    obtain ⟨it, hit, e, he, hee⟩ := h2
    exact ⟨it, hit, e, he, (substringTest_iff _ _ _).mpr hee⟩
  obtain ⟨pre, it, post, hsplit, hex, hpre, hres⟩ := firstIntent_first _ _ h0
  refine ⟨pre, it, post, hsplit, ?_, ?_, route_of_substring _ _ _ _ hnone hres⟩
  · obtain ⟨e, he, hee⟩ := hex
    exact ⟨e, he, (substringTest_iff _ _ _).mp hee⟩
  · intro j hj e he hsub
    have := hpre j hj e he
    rw [(substringTest_iff _ _ _).mpr hsub] at this
    cases this

/-- C2 at the intents B: ["yx"], A: ["x"] and the input "y": only "yx" contains
the input, the result is B. -/
theorem route_substring_first_witness :
    ∃ pre it post, intentsBA = pre ++ it :: post ∧
      (∃ e ∈ it.Examples,
        (ToLower asciiLower e <:+: ToLower asciiLower (TrimSpace "y".toList) ∨
          ToLower asciiLower (TrimSpace "y".toList) <:+: ToLower asciiLower e)) ∧
      (∀ j ∈ pre, ∀ e ∈ j.Examples,
        ¬ (ToLower asciiLower e <:+: ToLower asciiLower (TrimSpace "y".toList) ∨
          ToLower asciiLower (TrimSpace "y".toList) <:+: ToLower asciiLower e)) ∧
      RuleRouter.Route asciiLower "y".toList intentsBA = .ok it.Name :=
  route_substring_first asciiLower "y".toList intentsBA (by decide)
    ⟨{ Name := "B".toList, Examples := ["yx".toList], Next := [] }, by decide,
      "yx".toList, by decide, Or.inr (by decide)⟩

/-- C3, as stated, fails: on "book a flight" against the single example
"flight soon" the first two tiers match nothing, one of the two input words
longer than two characters occurs in the example (a half), and `Route` finds no
match, because it divides by all three input words. -/
theorem route_overlap_long_words_counterexample :
    (∀ it ∈ intentsFlightSoon, ∀ e ∈ it.Examples,
      ToLower asciiLower e ≠ ToLower asciiLower (TrimSpace "book a flight".toList) ∧
      ¬ (ToLower asciiLower e <:+: ToLower asciiLower (TrimSpace "book a flight".toList) ∨
        ToLower asciiLower (TrimSpace "book a flight".toList) <:+: ToLower asciiLower e)) ∧
    ((Fields (ToLower asciiLower (TrimSpace "book a flight".toList))).filter
      fun w => decide (2 < w.length)).length = 2 ∧
    ((Fields (ToLower asciiLower (TrimSpace "book a flight".toList))).filter
      fun w => decide (2 < w.length) &&
        decide (w ∈ Fields (ToLower asciiLower "flight soon".toList))).length = 1 ∧
    RuleRouter.Route asciiLower "book a flight".toList intentsFlightSoon = .error .NoMatch := by
  refine ⟨by decide, by decide, by decide, ?_⟩
  apply route_of_none
  · decide
  · decide
  · decide
  · rw [firstIntent_eq_none]
    intro it hit e he
    cases h : overlapTest asciiLower (ToLower asciiLower (TrimSpace "book a flight".toList)) e
    · rfl
    · rw [overlapTest_iff] at h
      simp only [intentsFlightSoon, List.mem_singleton] at hit
      subst hit
      simp only [List.mem_singleton] at he
      subst he
      revert h
      decide

theorem exact_none_of (lower : Char → Char) (input : Str) (intents : List Intent)
    (h : ∀ it ∈ intents, ∀ e ∈ it.Examples,
      ToLower lower e ≠ ToLower lower (TrimSpace input)) :
    firstIntent (exactTest lower (ToLower lower (TrimSpace input))) intents = none := by
  rw [firstIntent_eq_none]
  intro it hit e he
  have := h it hit e he
  simpa [exactTest] using this

theorem substring_none_of (lower : Char → Char) (input : Str) (intents : List Intent)
    (h : ∀ it ∈ intents, ∀ e ∈ it.Examples,
      ¬ (ToLower lower e <:+: ToLower lower (TrimSpace input) ∨
        ToLower lower (TrimSpace input) <:+: ToLower lower e)) :
    firstIntent (substringTest lower (ToLower lower (TrimSpace input))) intents = none := by
  rw [firstIntent_eq_none]
  intro it hit e he
  cases hs : substringTest lower (ToLower lower (TrimSpace input)) e
  · rfl
  · exact absurd ((substringTest_iff _ _ _).mp hs) (h it hit e he)

theorem overlap_none_of (lower : Char → Char) (input : Str) (intents : List Intent)
    (h : ∀ it ∈ intents, ∀ e ∈ it.Examples,
      ¬ (0 < (Fields (ToLower lower (TrimSpace input))).length ∧
        (Fields (ToLower lower (TrimSpace input))).length ≤
          2 * ((Fields (ToLower lower (TrimSpace input))).filter fun w =>
            decide (2 < byteLen w) && decide (w ∈ Fields (ToLower lower e))).length)) :
    firstIntent (overlapTest lower (ToLower lower (TrimSpace input))) intents = none := by
  rw [firstIntent_eq_none]
  intro it hit e he
  cases hs : overlapTest lower (ToLower lower (TrimSpace input)) e
  · rfl
  · exact absurd ((overlapTest_iff _ _ _).mp hs) (h it hit e he)

/-- C3, amended: the denominator is the number of all input words. When the
first two tiers match nothing and, for some example, the input has a word and the
input words longer than two characters that occur in the example are at least
half of all the input words, `Route` succeeds. -/
theorem route_overlap_all_words (lower : Char → Char) (input : Str) (intents : List Intent)
    (h12 : ∀ it ∈ intents, ∀ e ∈ it.Examples,
      ToLower lower e ≠ ToLower lower (TrimSpace input) ∧
      ¬ (ToLower lower e <:+: ToLower lower (TrimSpace input) ∨
        ToLower lower (TrimSpace input) <:+: ToLower lower e))
    (h3 : ∃ it ∈ intents, ∃ e ∈ it.Examples,
      0 < (Fields (ToLower lower (TrimSpace input))).length ∧
      (Fields (ToLower lower (TrimSpace input))).length ≤
        2 * ((Fields (ToLower lower (TrimSpace input))).filter fun w =>
          decide (2 < w.length) && decide (w ∈ Fields (ToLower lower e))).length) :
    ∃ it ∈ intents, RuleRouter.Route lower input intents = .ok it.Name := by
  have hn1 := exact_none_of lower input intents (fun it hit e he => (h12 it hit e he).1)
  have hn2 := substring_none_of lower input intents (fun it hit e he => (h12 it hit e he).2)
  have h0 : ∃ it ∈ intents, ∃ e ∈ it.Examples,
      overlapTest lower (ToLower lower (TrimSpace input)) e = true := by
    obtain ⟨it, hit, e, he, hpos, hle⟩ := h3
    refine ⟨it, hit, e, he, (overlapTest_iff _ _ _).mpr ⟨hpos, le_trans hle ?_⟩⟩
    apply Nat.mul_le_mul_left
    rw [← List.countP_eq_length_filter, ← List.countP_eq_length_filter]
    apply List.countP_mono_left
    intro w _ hw
    simp only [Bool.and_eq_true, decide_eq_true_eq] at hw ⊢
    exact ⟨lt_of_lt_of_le hw.1 (length_le_byteLen w), hw.2⟩
  obtain ⟨pre, it, post, hsplit, _, _, hres⟩ := firstIntent_first _ _ h0
  exact ⟨it, by rw [hsplit]; simp, route_of_overlap _ _ _ _ hn1 hn2 hres⟩

/-- C3 amended, at "book a flight" and the examples "sunny today", "book flight
now": two of the three input words occur in the second example. -/
theorem route_overlap_all_words_witness :
    ∃ it ∈ intentsBooking,
      RuleRouter.Route asciiLower "book a flight".toList intentsBooking = .ok it.Name :=
  route_overlap_all_words asciiLower "book a flight".toList intentsBooking (by decide)
    ⟨{ Name := "travel".toList, Examples := ["book flight now".toList], Next := [] },
      by decide, "book flight now".toList, by decide, by decide⟩

/-- C4. Word-overlap tier as an integer test: on a non-empty intent list on
which the first two tiers match nothing, `Route` returns the name of the first
intent, in authoring order, that has an example with `inputTokenCount > 0` and
`2 * matchCount >= inputTokenCount` (the count of all input words, and the count
of the input words longer than two bytes that are words of the example); when
no example passes, `Route` fails with `NoMatch`. -/
theorem route_overlap_first (lower : Char → Char) (input : Str) (intents : List Intent)
    (hne : intents ≠ [])
    (h12 : ∀ it ∈ intents, ∀ e ∈ it.Examples,
      ToLower lower e ≠ ToLower lower (TrimSpace input) ∧
      ¬ (ToLower lower e <:+: ToLower lower (TrimSpace input) ∨
        ToLower lower (TrimSpace input) <:+: ToLower lower e)) :
    ((∃ it ∈ intents, ∃ e ∈ it.Examples,
        0 < (Fields (ToLower lower (TrimSpace input))).length ∧
        (Fields (ToLower lower (TrimSpace input))).length ≤
          2 * ((Fields (ToLower lower (TrimSpace input))).filter fun w =>
            decide (2 < byteLen w) && decide (w ∈ Fields (ToLower lower e))).length) →
      ∃ pre it post, intents = pre ++ it :: post ∧
        (∃ e ∈ it.Examples,
          0 < (Fields (ToLower lower (TrimSpace input))).length ∧
          (Fields (ToLower lower (TrimSpace input))).length ≤
            2 * ((Fields (ToLower lower (TrimSpace input))).filter fun w =>
              decide (2 < byteLen w) && decide (w ∈ Fields (ToLower lower e))).length) ∧
        (∀ j ∈ pre, ∀ e ∈ j.Examples,
          ¬ (0 < (Fields (ToLower lower (TrimSpace input))).length ∧
            (Fields (ToLower lower (TrimSpace input))).length ≤
              2 * ((Fields (ToLower lower (TrimSpace input))).filter fun w =>
                decide (2 < byteLen w) && decide (w ∈ Fields (ToLower lower e))).length)) ∧
        RuleRouter.Route lower input intents = .ok it.Name) ∧
    ((∀ it ∈ intents, ∀ e ∈ it.Examples,
        ¬ (0 < (Fields (ToLower lower (TrimSpace input))).length ∧
          (Fields (ToLower lower (TrimSpace input))).length ≤
            2 * ((Fields (ToLower lower (TrimSpace input))).filter fun w =>
              decide (2 < byteLen w) && decide (w ∈ Fields (ToLower lower e))).length)) →
      RuleRouter.Route lower input intents = .error .NoMatch) := by
  have hn1 := exact_none_of lower input intents (fun it hit e he => (h12 it hit e he).1)
  have hn2 := substring_none_of lower input intents (fun it hit e he => (h12 it hit e he).2)
  constructor
  · intro h3
    have h0 : ∃ it ∈ intents, ∃ e ∈ it.Examples,
        overlapTest lower (ToLower lower (TrimSpace input)) e = true := by
      obtain ⟨it, hit, e, he, hee⟩ := h3
      exact ⟨it, hit, e, he, (overlapTest_iff _ _ _).mpr hee⟩
    obtain ⟨pre, it, post, hsplit, hex, hpre, hres⟩ := firstIntent_first _ _ h0
    refine ⟨pre, it, post, hsplit, ?_, ?_, route_of_overlap _ _ _ _ hn1 hn2 hres⟩
    · obtain ⟨e, he, hee⟩ := hex
      exact ⟨e, he, (overlapTest_iff _ _ _).mp hee⟩
    · intro j hj e he hov
      have := hpre j hj e he
      rw [(overlapTest_iff _ _ _).mpr hov] at this
      cases this
  · intro h3
    exact route_of_none _ _ _ hne hn1 hn2 (overlap_none_of _ _ _ h3)

/-- C4 at "book a flight": against "sunny today" and "book flight now" the
second intent is returned, against "flight soon" alone there is no match. -/
theorem route_overlap_first_witness :
    (∃ pre it post, intentsBooking = pre ++ it :: post ∧
        (∃ e ∈ it.Examples,
          0 < (Fields (ToLower asciiLower (TrimSpace "book a flight".toList))).length ∧
          (Fields (ToLower asciiLower (TrimSpace "book a flight".toList))).length ≤
            2 * ((Fields (ToLower asciiLower (TrimSpace "book a flight".toList))).filter
              fun w => decide (2 < byteLen w) &&
                decide (w ∈ Fields (ToLower asciiLower e))).length) ∧
        (∀ j ∈ pre, ∀ e ∈ j.Examples,
          ¬ (0 < (Fields (ToLower asciiLower (TrimSpace "book a flight".toList))).length ∧
            (Fields (ToLower asciiLower (TrimSpace "book a flight".toList))).length ≤
              2 * ((Fields (ToLower asciiLower (TrimSpace "book a flight".toList))).filter
                fun w => decide (2 < byteLen w) &&
                  decide (w ∈ Fields (ToLower asciiLower e))).length)) ∧
        RuleRouter.Route asciiLower "book a flight".toList intentsBooking = .ok it.Name) ∧
    RuleRouter.Route asciiLower "book a flight".toList intentsFlightSoon = .error .NoMatch :=
  ⟨(route_overlap_first asciiLower "book a flight".toList intentsBooking (by decide)
      (by decide)).1
      ⟨{ Name := "travel".toList, Examples := ["book flight now".toList], Next := [] },
        by decide, "book flight now".toList, by decide, by decide⟩,
    (route_overlap_first asciiLower "book a flight".toList intentsFlightSoon (by decide)
      (by decide)).2 (by decide)⟩

/-- C5. Failure kinds of `Route`: it fails with `NoIntents` exactly when the
intent list is empty; on a non-empty list it fails with `NoMatch` exactly when
no example of any intent passes the exact, substring or word-overlap test, and
succeeds otherwise. -/
theorem route_failure_kinds (lower : Char → Char) (input : Str) (intents : List Intent) :
    (RuleRouter.Route lower input intents = .error .NoIntents ↔ intents = []) ∧
    (intents ≠ [] →
      (RuleRouter.Route lower input intents = .error .NoMatch ↔
        ∀ it ∈ intents, ∀ e ∈ it.Examples,
          ToLower lower e ≠ ToLower lower (TrimSpace input) ∧
          ¬ (ToLower lower e <:+: ToLower lower (TrimSpace input) ∨
            ToLower lower (TrimSpace input) <:+: ToLower lower e) ∧
          ¬ (0 < (Fields (ToLower lower (TrimSpace input))).length ∧
            (Fields (ToLower lower (TrimSpace input))).length ≤
              2 * ((Fields (ToLower lower (TrimSpace input))).filter fun w =>
                decide (2 < byteLen w) && decide (w ∈ Fields (ToLower lower e))).length)) ∧
      ((∃ it ∈ intents, ∃ e ∈ it.Examples,
          ToLower lower e = ToLower lower (TrimSpace input) ∨
          (ToLower lower e <:+: ToLower lower (TrimSpace input) ∨
            ToLower lower (TrimSpace input) <:+: ToLower lower e) ∨
          (0 < (Fields (ToLower lower (TrimSpace input))).length ∧
            (Fields (ToLower lower (TrimSpace input))).length ≤
              2 * ((Fields (ToLower lower (TrimSpace input))).filter fun w =>
                decide (2 < byteLen w) && decide (w ∈ Fields (ToLower lower e))).length)) →
        ∃ name, RuleRouter.Route lower input intents = .ok name)) := by
  have key : intents ≠ [] →
      (RuleRouter.Route lower input intents = .error .NoMatch ↔
        ∀ it ∈ intents, ∀ e ∈ it.Examples,
          ToLower lower e ≠ ToLower lower (TrimSpace input) ∧
          ¬ (ToLower lower e <:+: ToLower lower (TrimSpace input) ∨
            ToLower lower (TrimSpace input) <:+: ToLower lower e) ∧
          ¬ (0 < (Fields (ToLower lower (TrimSpace input))).length ∧
            (Fields (ToLower lower (TrimSpace input))).length ≤
              2 * ((Fields (ToLower lower (TrimSpace input))).filter fun w =>
                decide (2 < byteLen w) && decide (w ∈ Fields (ToLower lower e))).length)) ∧
      (RuleRouter.Route lower input intents ≠ .error .NoMatch →
        ∃ name, RuleRouter.Route lower input intents = .ok name) := by
    intro hne
    have hlen : intents.length ≠ 0 := by
      cases intents with
      | nil => exact absurd rfl hne
      | cons a rest => simp
    cases h1 : firstIntent (exactTest lower (ToLower lower (TrimSpace input))) intents with
    | some n =>
      have hr := route_of_exact _ _ _ _ h1
      refine ⟨⟨fun h => ?_, fun h => ?_⟩, fun _ => ⟨n, hr⟩⟩
      · rw [hr] at h; cases h
      · have := exact_none_of lower input intents (fun it hit e he => (h it hit e he).1)
        rw [h1] at this; cases this
    | none =>
      cases h2 : firstIntent (substringTest lower (ToLower lower (TrimSpace input))) intents with
      | some n =>
        have hr := route_of_substring _ _ _ _ h1 h2
        refine ⟨⟨fun h => ?_, fun h => ?_⟩, fun _ => ⟨n, hr⟩⟩
        · rw [hr] at h; cases h
        · have := substring_none_of lower input intents
            (fun it hit e he => (h it hit e he).2.1)
          rw [h2] at this; cases this
      | none =>
        cases h3 : firstIntent (overlapTest lower (ToLower lower (TrimSpace input))) intents with
        | some n =>
          have hr := route_of_overlap _ _ _ _ h1 h2 h3
          refine ⟨⟨fun h => ?_, fun h => ?_⟩, fun _ => ⟨n, hr⟩⟩
          · rw [hr] at h; cases h
          · have := overlap_none_of lower input intents
              (fun it hit e he => (h it hit e he).2.2)
            rw [h3] at this; cases this
        | none =>
          have hr := route_of_none _ _ _ hne h1 h2 h3
          refine ⟨⟨fun _ => ?_, fun _ => hr⟩, fun h => absurd hr h⟩
          intro it hit e he
          have e1 := (firstIntent_eq_none _ _).mp h1 it hit e he
          have e2 := (firstIntent_eq_none _ _).mp h2 it hit e he
          have e3 := (firstIntent_eq_none _ _).mp h3 it hit e he
          refine ⟨?_, ?_, ?_⟩
          · intro h; rw [(exactTest_iff _ _ _).mpr h] at e1; cases e1
          · intro h; rw [(substringTest_iff _ _ _).mpr h] at e2; cases e2
          · intro h; rw [(overlapTest_iff _ _ _).mpr h] at e3; cases e3
  refine ⟨?_, fun hne => ⟨(key hne).1, ?_⟩⟩
  · constructor
    · intro h
      by_contra hne
      have hlen : intents.length ≠ 0 := by
        cases intents with
        | nil => exact absurd rfl hne
        | cons a rest => simp
      rcases hr : RuleRouter.Route lower input intents with err | name
      · rw [hr] at h
        injection h with h
        subst h
        revert hr
        simp only [RuleRouter.Route, hlen, if_false]
        split
        · intro h; cases h
        · split
          · intro h; cases h
          · split
            · intro h; cases h
            · intro h; cases h
      · rw [hr] at h; cases h
    · intro h; subst h; rfl
  · rintro ⟨it, hit, e, he, hcase⟩
    apply (key hne).2
    intro hno
    obtain ⟨a, b, c⟩ := ((key hne).1.mp hno) it hit e he
    rcases hcase with h | h | h
    · exact a h
    · exact b h
    · exact c h

/-- C5 at the intents B: ["yx"], A: ["x"] and the input "x": the list is not
empty and an example passes a test, so `Route` succeeds. -/
theorem route_failure_kinds_witness :
    ∃ name, RuleRouter.Route asciiLower "x".toList intentsBA = .ok name :=
  ((route_failure_kinds asciiLower "x".toList intentsBA).2 (by decide)).2
    ⟨{ Name := "A".toList, Examples := ["x".toList], Next := [] }, by decide,
      "x".toList, by decide, Or.inl (by decide)⟩

/-! ## The classifier router -/

/-- C6. Classifier answers are validated: on a non-empty candidate list
`LLMRouter.Route` succeeds with `n` exactly when the provider returned `n` without
error and `n` is the name of a supplied intent; a failing provider and a name
outside the candidates both give an error, an empty list gives `NoIntents`, and
every successful result names a supplied intent. -/
theorem llm_route_validated (classify : Classifier) (input : Str) (intents : List Intent) :
    (intents = [] → LLMRouter.Route classify input intents = .error .NoIntents) ∧
    (intents ≠ [] → ∀ n, (LLMRouter.Route classify input intents = .ok n ↔
      (classify input (intents.map fun it => { Name := it.Name, Examples := it.Examples })
          = .ok n ∧ ∃ it ∈ intents, it.Name = n))) ∧
    (intents ≠ [] → ∀ cause,
      classify input (intents.map fun it => { Name := it.Name, Examples := it.Examples })
          = .error cause →
      LLMRouter.Route classify input intents = .error (.ClassificationFailed cause)) ∧
    (intents ≠ [] → ∀ n,
      classify input (intents.map fun it => { Name := it.Name, Examples := it.Examples })
          = .ok n →
      (∀ it ∈ intents, it.Name ≠ n) →
      LLMRouter.Route classify input intents = .error (.InvalidIntent n)) ∧
    (∀ n, LLMRouter.Route classify input intents = .ok n → ∃ it ∈ intents, it.Name = n) := by
  have hlen : intents ≠ [] → intents.length ≠ 0 := by
    intro hne
    cases intents with
    | nil => exact absurd rfl hne
    | cons a rest => simp
  have hiff : intents ≠ [] → ∀ n, (LLMRouter.Route classify input intents = .ok n ↔
      (classify input (intents.map fun it => { Name := it.Name, Examples := it.Examples })
          = .ok n ∧ ∃ it ∈ intents, it.Name = n)) := by
    intro hne n
    simp only [LLMRouter.Route, hlen hne, if_false]
    cases hc : classify input
        (intents.map fun it => ({ Name := it.Name, Examples := it.Examples } : LLMIntent)) with
    | error err => simp
    | ok m =>
      by_cases hm : (intents.any fun intent => decide (intent.Name = m)) = true
      · simp only [hm, if_true]
        constructor
        · intro h
          injection h with h
          subst h
          obtain ⟨it, hit, hname⟩ := List.any_eq_true.mp hm
          exact ⟨rfl, it, hit, by simpa using hname⟩
        · rintro ⟨h, _⟩
          injection h with h
          rw [h]
      · simp only [hm, Bool.false_eq_true, if_false]
        constructor
        · intro h; cases h
        · rintro ⟨h, it, hit, hname⟩
          injection h with h
          subst h
          exact absurd (List.any_eq_true.mpr ⟨it, hit, by simpa using hname⟩) hm
  refine ⟨?_, hiff, ?_, ?_, ?_⟩
  · intro h; subst h; rfl
  · intro hne cause hc
    simp only [LLMRouter.Route, hlen hne, if_false, hc]
  · intro hne n hc hnot
    have hm : (intents.any fun intent => decide (intent.Name = n)) = false := by
      cases hany : intents.any fun intent => decide (intent.Name = n)
      · rfl
      · obtain ⟨it, hit, hname⟩ := List.any_eq_true.mp hany
        exact absurd (by simpa using hname) (hnot it hit)
    simp only [LLMRouter.Route, hlen hne, if_false, hc, hm, Bool.false_eq_true]
  · intro n h
    by_cases hne : intents = []
    · subst hne
      simp [LLMRouter.Route] at h
    · exact ((hiff hne n).mp h).2

/-- C6 on the greeting intents with a provider answering "greet": the route
succeeds with "greet", which is a supplied intent. -/
theorem llm_route_validated_witness :
    LLMRouter.Route alwaysGreet "good day".toList greetIntents = .ok "greet".toList ∧
    ∃ it ∈ greetIntents, it.Name = "greet".toList :=
  ⟨((llm_route_validated alwaysGreet "good day".toList greetIntents).2.1 (by decide)
      "greet".toList).mpr ⟨rfl, _, List.mem_singleton.mpr rfl, rfl⟩,
    (llm_route_validated alwaysGreet "good day".toList greetIntents).2.2.2.2 "greet".toList
      (by decide)⟩

/-! ## Lemmas on the session operations -/

theorem mapGet_mapSet_self {β : Type} (key : Str) (value : β) (m : List (Str × β)) :
    mapGet key (mapSet key value m) = some value := by
  induction m with
  | nil => simp [mapSet, mapGet]
  | cons kv rest ih =>
    obtain ⟨k, v⟩ := kv
    by_cases h : k = key
    · simp [mapSet, mapGet, h]
    · simp [mapSet, mapGet, h, ih]

theorem mapGet_mapSet_other {β : Type} (key other : Str) (value : β) (m : List (Str × β))
    (h : other ≠ key) : mapGet other (mapSet key value m) = mapGet other m := by
  induction m with
  | nil =>
    have h2 : ¬ key = other := fun e => h e.symm
    simp [mapSet, mapGet, h2]
  | cons kv rest ih =>
    obtain ⟨k, v⟩ := kv
    by_cases hk : k = key
    · subst hk
      have h2 : ¬ k = other := fun e => h e.symm
      simp [mapSet, mapGet, h2]
    · by_cases hko : k = other
      · subst hko
        simp [mapSet, mapGet, hk]
      · simp [mapSet, mapGet, hk, hko, ih]

theorem execute_frame (s s1 : Session) (action : Action) (userInput : Str)
    (h : Executor.Execute s action userInput = .ok s1) :
    s1.CurrentNode = s.CurrentNode ∧ s1.History = s.History := by
  unfold Executor.Execute at h
  split at h
  · unfold Executor.executeSetVar at h
    simp only at h
    split at h
    · cases h
    · split at h
      · injection h with h
        subst h
        exact ⟨rfl, rfl⟩
      · cases h
  · cases h

theorem execActions_frame (userInput : Str) (actions : List Action) (s : Session) :
    (execActions userInput actions s).1.CurrentNode = s.CurrentNode ∧
    (execActions userInput actions s).1.History = s.History := by
  induction actions generalizing s with
  | nil => exact ⟨rfl, rfl⟩
  | cons a rest ih =>
    simp only [execActions]
    cases h : Executor.Execute s a userInput with
    | error err => exact ⟨rfl, rfl⟩
    | ok s1 =>
      obtain ⟨h1, h2⟩ := execute_frame s s1 a userInput h
      obtain ⟨h3, h4⟩ := ih s1
      exact ⟨h3.trans h1, h4.trans h2⟩

theorem transition_ok (bot : Bot) (s : Session) (nextNode : Str) (target : Node)
    (hne : nextNode ≠ []) (hkey : mapGet nextNode bot.Flows = some target) :
    Engine.Transition bot s nextNode = .ok { s with CurrentNode := nextNode } := by
  simp [Engine.Transition, hne, hkey]

/-- The loop body up to the point where a line has been read: on a node that is
not terminal, with a line available, the pass renders, shows the intents if any,
prompts, reads, and hands the trimmed line to `handleInput`. -/
theorem iteration_read (ce : ConversationEngine) (w : World) (node : Node) (line : Str)
    (rest : List Str) (hnode : Engine.GetCurrentNode ce.bot w.session = .ok node)
    (hterm : ¬ (node.Next = [] ∧ node.Intents = []))
    (hstdin : w.stdin = line :: rest) :
    iteration ce w =
      handleInput ce w.stdin.length node
        (CLIRenderer.RenderMessage (ce.order w.stdin.length) node w.session) (TrimSpace line)
        { session := w.session, stdin := rest,
          stdout := (if node.Intents.length > 0 then
              w.stdout ++ [.message
                (CLIRenderer.RenderMessage (ce.order w.stdin.length) node w.session)] ++
                [.intents node.Intents]
            else
              w.stdout ++ [.message
                (CLIRenderer.RenderMessage (ce.order w.stdin.length) node w.session)]) ++
            [.prompt] } := by
  have hT : Engine.IsTerminal ce.bot w.session = .ok false := by
    simp only [Engine.IsTerminal, hnode]
    congr 1
    by_cases h1 : node.Next = []
    · have h2 : node.Intents ≠ [] := fun h => hterm ⟨h1, h⟩
      have h3 : node.Intents.length ≠ 0 := by
        intro h; exact h2 (List.length_eq_zero.mp h)
      simp [h1, h3]
    · simp [h1]
  simp only [iteration, hnode, hT]
  by_cases hI : node.Intents.length > 0
  · simp [hI, CLIRenderer.ReadInput, hstdin]
  · simp [hI, CLIRenderer.ReadInput, hstdin]

theorem transition_congr (bot bot2 : Bot) (s : Session) (nextNode : Str)
    (hkeys : ∀ k, (mapGet k bot2.Flows).isSome = (mapGet k bot.Flows).isSome) :
    Engine.Transition bot2 s nextNode = Engine.Transition bot s nextNode := by
  unfold Engine.Transition
  by_cases hne : nextNode = []
  · simp [hne]
  · simp only [hne, if_false]
    have hk := hkeys nextNode
    cases h1 : mapGet nextNode bot.Flows <;> cases h2 : mapGet nextNode bot2.Flows <;>
      simp_all

theorem iteration_capture (ce : ConversationEngine) (w : World) (node : Node) (inp : Input)
    (line : Str) (rest : List Str)
    (hnode : Engine.GetCurrentNode ce.bot w.session = .ok node)
    (hinput : node.Input = some inp)
    (hterm : ¬ (node.Next = [] ∧ node.Intents = []))
    (hstdin : w.stdin = line :: rest) :
    ∃ out, iteration ce w =
      captureBranch ce node inp (TrimSpace line)
        { session := w.session, stdin := rest, stdout := out } := by
  rw [iteration_read ce w node line rest hnode hterm hstdin]
  simp only [handleInput, hinput]
  exact ⟨_, rfl⟩

theorem captureBranch_session (ce : ConversationEngine) (node : Node) (inp : Input)
    (u : Str) (w : World) :
    (captureBranch ce node inp u w).1.session.Variables =
      (execActions u node.Actions (Engine.SetVariable w.session inp.SaveAs u)).1.Variables ∧
    (captureBranch ce node inp u w).1.session.History = w.session.History ∧
    (captureBranch ce node inp u w).1.stdin = w.stdin := by
  have hf := execActions_frame u node.Actions (Engine.SetVariable w.session inp.SaveAs u)
  unfold captureBranch
  rcases hx : execActions u node.Actions (Engine.SetVariable w.session inp.SaveAs u)
    with ⟨s2, err⟩
  rw [hx] at hf
  have hh : s2.History = w.session.History := hf.2
  cases err with
  | some e => simp [hx, hh]
  | none =>
    by_cases hn : node.Next = []
    · simp [hx, hn, hh]
    · cases ht : mapGet node.Next ce.bot.Flows with
      | none => simp [hx, hn, hh, Engine.Transition, ht]
      | some t => simp [hx, hn, hh, Engine.Transition, ht]

theorem transition_frame (bot : Bot) (s s1 : Session) (nextNode : Str)
    (h : Engine.Transition bot s nextNode = .ok s1) :
    s1.CurrentNode = nextNode ∧ s1.Variables = s.Variables ∧ s1.History = s.History := by
  unfold Engine.Transition at h
  split at h
  · cases h
  · split at h
    · cases h
    · injection h with h
      subst h
      exact ⟨rfl, rfl, rfl⟩

theorem followIntent_history (ce : ConversationEngine) (node : Node) (intentName u : Str)
    (s : Session) : (followIntent ce node intentName u s).1.History = s.History := by
  have hf := execActions_frame u node.Actions s
  unfold followIntent
  split
  · rfl
  · rcases hx : execActions u node.Actions s with ⟨s1, err⟩
    rw [hx] at hf
    cases err with
    | some e => exact hf.2
    | none =>
      simp only
      split
      · cases ht : Engine.Transition ce.bot s1 _ with
        | error e => exact hf.2
        | ok s2 => exact (transition_frame _ _ _ _ ht).2.2.trans hf.2
      · exact hf.2

theorem plainBranch_history (ce : ConversationEngine) (node : Node) (u : Str) (s : Session) :
    (plainBranch ce node u s).1.History = s.History := by
  have hf := execActions_frame u node.Actions s
  unfold plainBranch
  rcases hx : execActions u node.Actions s with ⟨s1, err⟩
  rw [hx] at hf
  cases err with
  | some e => exact hf.2
  | none =>
    simp only
    cases ht : Engine.Transition ce.bot s1 node.Next with
    | error e => exact hf.2
    | ok s2 => exact (transition_frame _ _ _ _ ht).2.2.trans hf.2

/-- Every pass leaves the history as it was or appends one Turn made of the
message template of the node, the trimmed line and the rendered message; a pass
through the input-capture branch always leaves it as it was. -/
theorem handleInput_history (ce : ConversationEngine) (clock : Nat) (node : Node)
    (message u : Str) (w : World) :
    (handleInput ce clock node message u w).1.session.History = w.session.History ∨
    (node.Input = none ∧ (handleInput ce clock node message u w).2 = .loop ∧
      (handleInput ce clock node message u w).1.session.History =
        w.session.History ++ [{ Node := node.Message, UserInput := u, Response := message }]) := by
  unfold handleInput
  cases hin : node.Input with
  | some inp => exact Or.inl (captureBranch_session ce node inp u w).2.1
  | none =>
    simp only
    split
    · split
      · exact Or.inl rfl
      · rename_i intentName _
        have hh := followIntent_history ce node intentName u w.session
        rcases hx : followIntent ce node intentName u w.session with ⟨s1, err⟩
        rw [hx] at hh
        cases err with
        | some e => exact Or.inl hh
        | none =>
          refine Or.inr ⟨trivial, rfl, ?_⟩
          simp only [Engine.AddTurn]
          rw [show s1.History = w.session.History from hh]
    · split
      · have hh := plainBranch_history ce node u w.session
        rcases hx : plainBranch ce node u w.session with ⟨s1, err⟩
        rw [hx] at hh
        cases err with
        | some e => exact Or.inl hh
        | none =>
          refine Or.inr ⟨trivial, rfl, ?_⟩
          simp only [Engine.AddTurn]
          rw [show s1.History = w.session.History from hh]
      · exact Or.inr ⟨trivial, rfl, rfl⟩

/-! ## The loop of the conversation engine -/

/-- C7. Unmatched input is recoverable: on a node with intents and no input
capture, when the rule router fails on the line read and the classifier route
fails too (or no provider is set), the pass prints the "didn't understand"
notice after the message, the options and the prompt, does not return, and
leaves the session (current node, variables, history) as it was, so the next
pass resolves the same node. -/
theorem unmatched_input_keeps_session (ce : ConversationEngine) (w : World) (node : Node)
    (line : Str) (rest : List Str)
    (hnode : Engine.GetCurrentNode ce.bot w.session = .ok node)
    (hinput : node.Input = none)
    (hintents : node.Intents ≠ [])
    (hstdin : w.stdin = line :: rest)
    (hrule : ∃ err, RuleRouter.Route ce.lower (TrimSpace line) node.Intents = .error err)
    (hllm : ce.llmProvider = none ∨
      ∃ provider err, ce.llmProvider = some provider ∧
        LLMRouter.Route (provider w.stdin.length) (TrimSpace line) node.Intents
          = .error err) :
    (iteration ce w).2 = .loop ∧
    (iteration ce w).1.session = w.session ∧
    (iteration ce w).1.stdin = rest ∧
    (iteration ce w).1.stdout =
      w.stdout ++
        [.message (CLIRenderer.RenderMessage (ce.order w.stdin.length) node w.session),
         .intents node.Intents, .prompt, .message notUnderstood] ∧
    Engine.GetCurrentNode ce.bot (iteration ce w).1.session = .ok node := by
  have hterm : ¬ (node.Next = [] ∧ node.Intents = []) := fun h => hintents h.2
  have hlen : node.Intents.length > 0 := List.length_pos.mpr hintents
  have hroute : routeInput ce w.stdin.length (TrimSpace line) node.Intents = none := by
    obtain ⟨err, herr⟩ := hrule
    unfold routeInput
    rw [herr]
    rcases hllm with h | ⟨provider, e, hp, he⟩
    · simp [h]
    · simp [hp, he]
  have hit := iteration_read ce w node line rest hnode hterm hstdin
  simp only [handleInput, hinput, hlen, if_true, hroute] at hit
  rw [hit]
  refine ⟨rfl, rfl, rfl, ?_, hnode⟩
  simp

/-- C7 on the greeting flow with the input "xyz" and no provider: the notice is
printed and the session is still the fresh one at `start`. -/
theorem unmatched_input_keeps_session_witness :
    (iteration greetEngine ⟨NewEngine, ["xyz".toList], []⟩).2 = .loop ∧
    (iteration greetEngine ⟨NewEngine, ["xyz".toList], []⟩).1.session = NewEngine ∧
    (iteration greetEngine ⟨NewEngine, ["xyz".toList], []⟩).1.stdin = [] ∧
    (iteration greetEngine ⟨NewEngine, ["xyz".toList], []⟩).1.stdout =
      [] ++ [.message (CLIRenderer.RenderMessage (greetEngine.order 1)
          { Message := "Hi!".toList, Intents := greetIntents, Input := none, Actions := [],
            Next := [] } NewEngine),
         .intents greetIntents, .prompt, .message notUnderstood] ∧
    Engine.GetCurrentNode greetEngine.bot
        (iteration greetEngine ⟨NewEngine, ["xyz".toList], []⟩).1.session =
      .ok { Message := "Hi!".toList, Intents := greetIntents, Input := none, Actions := [],
            Next := [] } :=
  unmatched_input_keeps_session greetEngine ⟨NewEngine, ["xyz".toList], []⟩
    { Message := "Hi!".toList, Intents := greetIntents, Input := none, Actions := [],
      Next := [] }
    "xyz".toList [] (by decide) rfl (by decide) rfl
    ⟨.NoMatch, route_of_none _ _ _ (by decide) (by decide) (by decide)
      (overlap_none_of _ _ _ (by decide))⟩
    (Or.inl rfl)

/-- C8, the pass that breaks it: on the capture flow with the line "Ann" the
pass goes through the input-capture branch without error, binds `name`, moves to
`done`, and the history is still empty: the `continue` of that branch skips
`AddTurn`. -/
theorem capture_branch_appends_no_turn :
    iteration nameEngine ⟨NewEngine, ["Ann".toList], []⟩ =
      (⟨{ CurrentNode := "done".toList, Variables := [("name".toList, "Ann".toList)],
          History := [] }, [], [.message "Name?".toList, .prompt]⟩, .loop) := by
  decide

/-- C9, the pass that breaks it: on the greeting flow with the line "hi", read
at the node named `start`, the Turn appended has the message template "Hi!" in
its `Node` field, not the node name. -/
theorem turn_node_holds_message :
    NewEngine.CurrentNode = "start".toList ∧
    (iteration greetEngine ⟨NewEngine, ["hi".toList], []⟩).1.session.History =
      [{ Node := "Hi!".toList, UserInput := "hi".toList, Response := "Hi!".toList }] ∧
    (iteration greetEngine ⟨NewEngine, ["hi".toList], []⟩).2 = .loop := by
  decide

/-- C10. The input-capture branch ignores intents: on a non-terminal node with an
input capture, the pass binds `SaveAs` to the line read, replacing a prior
binding and leaving the others, before the actions run; when all actions succeed
the current node becomes `Next` if that is non-empty (and a node of the flow) and
stays otherwise; and the resulting session and outcome are the same for any
other intent list on that node. -/
theorem capture_ignores_intents (ce : ConversationEngine) (w : World) (node : Node)
    (inp : Input) (line : Str) (rest : List Str)
    (hnode : Engine.GetCurrentNode ce.bot w.session = .ok node)
    (hinput : node.Input = some inp)
    (hterm : ¬ (node.Next = [] ∧ node.Intents = []))
    (hstdin : w.stdin = line :: rest) :
    mapGet inp.SaveAs (Engine.SetVariable w.session inp.SaveAs (TrimSpace line)).Variables
      = some (TrimSpace line) ∧
    (∀ k, k ≠ inp.SaveAs →
      mapGet k (Engine.SetVariable w.session inp.SaveAs (TrimSpace line)).Variables
        = mapGet k w.session.Variables) ∧
    (iteration ce w).1.session.Variables =
      (execActions (TrimSpace line) node.Actions
        (Engine.SetVariable w.session inp.SaveAs (TrimSpace line))).1.Variables ∧
    ((execActions (TrimSpace line) node.Actions
        (Engine.SetVariable w.session inp.SaveAs (TrimSpace line))).2 = none →
      node.Next ≠ [] → (∃ target, mapGet node.Next ce.bot.Flows = some target) →
      (iteration ce w).1.session.CurrentNode = node.Next ∧ (iteration ce w).2 = .loop) ∧
    ((execActions (TrimSpace line) node.Actions
        (Engine.SetVariable w.session inp.SaveAs (TrimSpace line))).2 = none →
      node.Next = [] →
      (iteration ce w).1.session.CurrentNode = w.session.CurrentNode ∧
        (iteration ce w).2 = .loop) ∧
    (∀ (ce2 : ConversationEngine) (node2 : Node),
      Engine.GetCurrentNode ce2.bot w.session = .ok node2 →
      node2.Input = node.Input → node2.Actions = node.Actions → node2.Next = node.Next →
      ¬ (node2.Next = [] ∧ node2.Intents = []) →
      (∀ k, (mapGet k ce2.bot.Flows).isSome = (mapGet k ce.bot.Flows).isSome) →
      (iteration ce2 w).1.session = (iteration ce w).1.session ∧
        (iteration ce2 w).2 = (iteration ce w).2) := by
  obtain ⟨out, hit⟩ := iteration_capture ce w node inp line rest hnode hinput hterm hstdin
  have hf := execActions_frame (TrimSpace line) node.Actions
    (Engine.SetVariable w.session inp.SaveAs (TrimSpace line))
  refine ⟨mapGet_mapSet_self _ _ _, fun k hk => mapGet_mapSet_other _ _ _ _ hk, ?_, ?_, ?_, ?_⟩
  · rw [hit]
    exact (captureBranch_session ce node inp (TrimSpace line) _).1
  · rintro hok hne ⟨target, htarget⟩
    rw [hit]
    unfold captureBranch
    rcases hx : execActions (TrimSpace line) node.Actions
      (Engine.SetVariable w.session inp.SaveAs (TrimSpace line)) with ⟨s2, err⟩
    rw [hx] at hok
    simp only at hok
    subst hok
    simp [hx, hne, transition_ok ce.bot s2 node.Next target hne htarget]
  · intro hok hnil
    rw [hit]
    unfold captureBranch
    rcases hx : execActions (TrimSpace line) node.Actions
      (Engine.SetVariable w.session inp.SaveAs (TrimSpace line)) with ⟨s2, err⟩
    rw [hx] at hok hf
    simp only at hok
    subst hok
    simp only [hx, hnil, ne_eq, not_true_eq_false, if_false, and_true]
    exact hf.1
  · intro ce2 node2 hnode2 hin2 hact2 hnext2 hterm2 hkeys
    obtain ⟨out2, hit2⟩ := iteration_capture ce2 w node2 inp line rest hnode2
      (hin2.trans hinput) hterm2 hstdin
    rw [hit, hit2]
    unfold captureBranch
    rw [hact2, hnext2]
    rcases hx : execActions (TrimSpace line) node.Actions
      (Engine.SetVariable w.session inp.SaveAs (TrimSpace line)) with ⟨s2, err⟩
    cases err with
    | some e => simp [hx]
    | none =>
      by_cases hn : node.Next = []
      · simp [hx, hn]
      · have ht := transition_congr ce.bot ce2.bot s2 node.Next hkeys
        simp only [hx, hn, ne_eq, not_false_eq_true, if_true, ht]
        cases Engine.Transition ce.bot s2 node.Next with
        | error e => simp
        | ok s3 => simp

/-- C10 on the capture flow with the line "Ann": `name` is bound to "Ann" and
the current node becomes `done`. -/
theorem capture_ignores_intents_witness :
    (iteration nameEngine ⟨NewEngine, ["Ann".toList], []⟩).1.session.Variables =
      (execActions (TrimSpace "Ann".toList) []
        (Engine.SetVariable NewEngine "name".toList (TrimSpace "Ann".toList))).1.Variables ∧
    ((iteration nameEngine ⟨NewEngine, ["Ann".toList], []⟩).1.session.CurrentNode
        = "done".toList ∧
      (iteration nameEngine ⟨NewEngine, ["Ann".toList], []⟩).2 = .loop) :=
  have h := capture_ignores_intents nameEngine ⟨NewEngine, ["Ann".toList], []⟩
    { Message := "Name?".toList, Intents := [],
      Input := some { Typ := "text".toList, SaveAs := "name".toList }, Actions := [],
      Next := "done".toList }
    { Typ := "text".toList, SaveAs := "name".toList } "Ann".toList [] (by decide) rfl
    (by decide) rfl
  ⟨h.2.2.1, h.2.2.2.1 rfl (by decide)
    ⟨{ Message := "Bye \x7b\x7bname\x7d\x7d".toList, Intents := [], Input := none,
       Actions := [], Next := [] }, by decide⟩⟩

/-! ## Terminal nodes, transitions and actions -/

/-- C11. Terminal nodes end the run: `IsTerminal` answers true exactly when the
current node has an empty `Next` and no intents, whatever its input capture and
actions are; on such a node the pass and `Run` print the rendered message once,
read no line, leave the session (variables, current node, history) as it was and
return success. -/
theorem terminal_node_ends_run (ce : ConversationEngine) (w : World) (node : Node)
    (hnode : Engine.GetCurrentNode ce.bot w.session = .ok node) :
    (∃ b, Engine.IsTerminal ce.bot w.session = .ok b ∧
      (b = true ↔ (node.Next = [] ∧ node.Intents = []))) ∧
    ((node.Next = [] ∧ node.Intents = []) →
      iteration ce w =
        ({ session := w.session, stdin := w.stdin,
           stdout := w.stdout ++
             [.message (CLIRenderer.RenderMessage (ce.order w.stdin.length) node w.session)] },
          .done (.ok ())) ∧
      ce.Run w =
        ({ session := w.session, stdin := w.stdin,
           stdout := w.stdout ++
             [.message (CLIRenderer.RenderMessage (ce.order w.stdin.length) node w.session)] },
          some (.ok ()))) := by
  constructor
  · refine ⟨_, by simp only [Engine.IsTerminal, hnode]; rfl, ?_⟩
    simp only [Bool.and_eq_true, decide_eq_true_eq, List.length_eq_zero]
  · rintro ⟨h1, h2⟩
    have hT : Engine.IsTerminal ce.bot w.session = .ok true := by
      simp [Engine.IsTerminal, hnode, h1, h2]
    have hit : iteration ce w =
        ({ session := w.session, stdin := w.stdin,
           stdout := w.stdout ++
             [.message (CLIRenderer.RenderMessage (ce.order w.stdin.length) node w.session)] },
          .done (.ok ())) := by
      simp only [iteration, hnode, hT]
    refine ⟨hit, ?_⟩
    simp only [ConversationEngine.Run, runLoop, hit]

/-- C11 on the greeting flow with the session at `farewell`: "Bye" is printed
once, the unread line stays unread, the run succeeds. -/
theorem terminal_node_ends_run_witness :
    iteration greetEngine ⟨{ NewEngine with CurrentNode := "farewell".toList },
        ["late".toList], []⟩ =
      (⟨{ NewEngine with CurrentNode := "farewell".toList }, ["late".toList],
          [.message "Bye".toList]⟩, .done (.ok ())) ∧
    greetEngine.Run ⟨{ NewEngine with CurrentNode := "farewell".toList },
        ["late".toList], []⟩ =
      (⟨{ NewEngine with CurrentNode := "farewell".toList }, ["late".toList],
          [.message "Bye".toList]⟩, some (.ok ())) :=
  (terminal_node_ends_run greetEngine
    ⟨{ NewEngine with CurrentNode := "farewell".toList }, ["late".toList], []⟩
    { Message := "Bye".toList, Intents := [], Input := none, Actions := [], Next := [] }
    (by decide)).2 ⟨rfl, rfl⟩

/-- C12. `Transition` is all or nothing: it succeeds exactly when the target is
non-empty and a key of the flow; on success the current node is the target and
the variables and the history are unchanged; on failure it returns
`InvalidTransition` and the session is the one it was given. -/
theorem transition_all_or_nothing (bot : Bot) (s : Session) (t : Str) :
    ((∃ s1, Engine.Transition bot s t = .ok s1) ↔
      (t ≠ [] ∧ ∃ node, mapGet t bot.Flows = some node)) ∧
    (∀ s1, Engine.Transition bot s t = .ok s1 →
      s1.CurrentNode = t ∧ s1.Variables = s.Variables ∧ s1.History = s.History ∧
        afterCall s (Engine.Transition bot s t) = (s1, none)) ∧
    (¬ (t ≠ [] ∧ ∃ node, mapGet t bot.Flows = some node) →
      Engine.Transition bot s t = .error (.InvalidTransition t) ∧
        afterCall s (Engine.Transition bot s t) = (s, some (.InvalidTransition t))) := by
  refine ⟨?_, ?_, ?_⟩
  · constructor
    · rintro ⟨s1, h⟩
      unfold Engine.Transition at h
      by_cases ht : t = []
      · simp [ht] at h
      · cases hk : mapGet t bot.Flows with
        | none => simp [ht, hk] at h
        | some node => exact ⟨ht, node, rfl⟩
    · rintro ⟨ht, node, hk⟩
      exact ⟨_, transition_ok bot s t node ht hk⟩
  · intro s1 h
    obtain ⟨h1, h2, h3⟩ := transition_frame bot s s1 t h
    refine ⟨h1, h2, h3, ?_⟩
    rw [h]
    rfl
  · intro hno
    have h : Engine.Transition bot s t = .error (.InvalidTransition t) := by
      unfold Engine.Transition
      by_cases ht : t = []
      · simp [ht]
      · cases hk : mapGet t bot.Flows with
        | none => simp [ht]
        | some node => exact absurd ⟨ht, node, hk⟩ hno
    refine ⟨h, ?_⟩
    rw [h]
    rfl

/-- C12 on the greeting flow: `farewell` is reached from the fresh session, and
the target `nowhere` is refused with the session as it was. -/
theorem transition_all_or_nothing_witness :
    (∃ s1, Engine.Transition greetBot NewEngine "farewell".toList = .ok s1) ∧
    (Engine.Transition greetBot NewEngine "nowhere".toList
        = .error (.InvalidTransition "nowhere".toList) ∧
      afterCall NewEngine (Engine.Transition greetBot NewEngine "nowhere".toList)
        = (NewEngine, some (.InvalidTransition "nowhere".toList))) :=
  ⟨(transition_all_or_nothing greetBot NewEngine "farewell".toList).1.mpr
      ⟨by decide,
        { Message := "Bye".toList, Intents := [], Input := none, Actions := [], Next := [] },
        by decide⟩,
    (transition_all_or_nothing greetBot NewEngine "nowhere".toList).2.2
      (fun h => by
        obtain ⟨_, node, hk⟩ := h
        have hn : mapGet "nowhere".toList greetBot.Flows = none := by decide
        rw [hn] at hk
        cases hk)⟩

/-- C13. Value resolution of `set_var`: with a string `name` argument `n` and no
`value` argument the action succeeds and binds `n` to the raw input, replacing a
prior binding and leaving every other binding; with a string `value` argument
`v` it binds `n` to `v` instead. -/
theorem set_var_value_resolution (s : Session) (action : Action) (u n : Str)
    (htyp : action.Typ = "set_var".toList)
    (hname : mapGet "name".toList action.Args = some (.str n)) :
    (mapGet "value".toList action.Args = none →
      ∃ s1, Executor.Execute s action u = .ok s1 ∧
        mapGet n s1.Variables = some u ∧
        (∀ k, k ≠ n → mapGet k s1.Variables = mapGet k s.Variables) ∧
        s1.CurrentNode = s.CurrentNode ∧ s1.History = s.History) ∧
    (∀ v, mapGet "value".toList action.Args = some (.str v) →
      ∃ s1, Executor.Execute s action u = .ok s1 ∧
        mapGet n s1.Variables = some v ∧
        (∀ k, k ≠ n → mapGet k s1.Variables = mapGet k s.Variables) ∧
        s1.CurrentNode = s.CurrentNode ∧ s1.History = s.History) := by
  constructor
  · intro hval
    refine ⟨Engine.SetVariable s n u, ?_, mapGet_mapSet_self _ _ _,
      fun k hk => mapGet_mapSet_other _ _ _ _ hk, rfl, rfl⟩
    simp only [Executor.Execute, htyp, Executor.executeSetVar, hval, hname, if_true]
  · intro v hval
    refine ⟨Engine.SetVariable s n v, ?_, mapGet_mapSet_self _ _ _,
      fun k hk => mapGet_mapSet_other _ _ _ _ hk, rfl, rfl⟩
    simp only [Executor.Execute, htyp, Executor.executeSetVar, hval, hname, if_true]

/-- C13 on a session that already binds `city` and `tier`: the action without a
`value` rebinds `city` to the input "Oslo" and leaves `tier`; the action with the
value "gold" binds `tier` to it, not to the input. -/
theorem set_var_value_resolution_witness :
    (∃ s1, Executor.Execute
        { NewEngine with
          Variables := [("city".toList, "Rome".toList), ("tier".toList, "tin".toList)] }
        setCity "Oslo".toList = .ok s1 ∧
      mapGet "city".toList s1.Variables = some "Oslo".toList ∧
      (∀ k, k ≠ "city".toList → mapGet k s1.Variables =
        mapGet k [("city".toList, "Rome".toList), ("tier".toList, "tin".toList)]) ∧
      s1.CurrentNode = "start".toList ∧ s1.History = []) ∧
    (∃ s1, Executor.Execute NewEngine setTier "Oslo".toList = .ok s1 ∧
      mapGet "tier".toList s1.Variables = some "gold".toList ∧
      (∀ k, k ≠ "tier".toList → mapGet k s1.Variables = mapGet k []) ∧
      s1.CurrentNode = "start".toList ∧ s1.History = []) :=
  ⟨(set_var_value_resolution
      { NewEngine with
        Variables := [("city".toList, "Rome".toList), ("tier".toList, "tin".toList)] }
      setCity "Oslo".toList "city".toList rfl (by decide)).1 (by decide),
    (set_var_value_resolution NewEngine setTier "Oslo".toList "tier".toList rfl
      (by decide)).2 "gold".toList (by decide)⟩

/-- C14. Rejection without side effects: `Execute` succeeds exactly when the type
is `set_var`, `name` is present and a string, and `value` is absent or a string.
A present `value` that is not a string fails with `InvalidArgumentType`; with an
acceptable `value`, a `name` that is missing or not a string fails with
`MissingArgument`; any other type fails with `UnknownActionType`; and after every
failing call the session is the one the call was given. -/
theorem execute_rejects_without_effect (s : Session) (action : Action) (u : Str) :
    ((∃ s1, Executor.Execute s action u = .ok s1) ↔
      (action.Typ = "set_var".toList ∧
        (∃ n, mapGet "name".toList action.Args = some (.str n)) ∧
        (mapGet "value".toList action.Args = none ∨
          ∃ v, mapGet "value".toList action.Args = some (.str v)))) ∧
    (action.Typ = "set_var".toList →
      (∃ p, mapGet "value".toList action.Args = some (.other p)) →
      Executor.Execute s action u = .error .InvalidArgumentType) ∧
    (action.Typ = "set_var".toList →
      (mapGet "value".toList action.Args = none ∨
        ∃ v, mapGet "value".toList action.Args = some (.str v)) →
      (mapGet "name".toList action.Args = none ∨
        ∃ p, mapGet "name".toList action.Args = some (.other p)) →
      Executor.Execute s action u = .error .MissingArgument) ∧
    (action.Typ ≠ "set_var".toList →
      Executor.Execute s action u = .error (.UnknownActionType action.Typ)) ∧
    (∀ err, Executor.Execute s action u = .error err →
      afterCall s (Executor.Execute s action u) = (s, some err) ∧
        execActions u [action] s = (s, some err)) := by
  have hbad : action.Typ = "set_var".toList →
      (∃ p, mapGet "value".toList action.Args = some (.other p)) →
      Executor.Execute s action u = .error .InvalidArgumentType := by
    rintro htyp ⟨p, hp⟩
    simp only [Executor.Execute, htyp, Executor.executeSetVar, hp, if_true]
  have hmiss : action.Typ = "set_var".toList →
      (mapGet "value".toList action.Args = none ∨
        ∃ v, mapGet "value".toList action.Args = some (.str v)) →
      (mapGet "name".toList action.Args = none ∨
        ∃ p, mapGet "name".toList action.Args = some (.other p)) →
      Executor.Execute s action u = .error .MissingArgument := by
    rintro htyp (hv | ⟨v, hv⟩) (hn | ⟨p, hn⟩) <;>
      simp only [Executor.Execute, htyp, Executor.executeSetVar, hv, hn, if_true]
  have hunk : action.Typ ≠ "set_var".toList →
      Executor.Execute s action u = .error (.UnknownActionType action.Typ) := by
    intro htyp
    simp only [Executor.Execute, htyp, if_false]
  refine ⟨?_, hbad, hmiss, hunk, ?_⟩
  · constructor
    · rintro ⟨s1, h⟩
      by_cases htyp : action.Typ = "set_var".toList
      · refine ⟨htyp, ?_⟩
        cases hv : mapGet "value".toList action.Args with
        | none =>
          cases hn : mapGet "name".toList action.Args with
          | none => rw [hmiss htyp (Or.inl hv) (Or.inl hn)] at h; cases h
          | some x =>
            cases x with
            | str n => exact ⟨⟨n, rfl⟩, Or.inl rfl⟩
            | other p => rw [hmiss htyp (Or.inl hv) (Or.inr ⟨p, hn⟩)] at h; cases h
        | some y =>
          cases y with
          | other p => rw [hbad htyp ⟨p, hv⟩] at h; cases h
          | str v =>
            cases hn : mapGet "name".toList action.Args with
            | none => rw [hmiss htyp (Or.inr ⟨v, hv⟩) (Or.inl hn)] at h; cases h
            | some x =>
              cases x with
              | str n => exact ⟨⟨n, rfl⟩, Or.inr ⟨v, rfl⟩⟩
              | other p => rw [hmiss htyp (Or.inr ⟨v, hv⟩) (Or.inr ⟨p, hn⟩)] at h; cases h
      · rw [hunk htyp] at h; cases h
    · rintro ⟨htyp, ⟨n, hn⟩, hv⟩
      rcases hv with hv | ⟨v, hv⟩
      · obtain ⟨s1, h, _⟩ := (set_var_value_resolution s action u n htyp hn).1 hv
        exact ⟨s1, h⟩
      · obtain ⟨s1, h, _⟩ := (set_var_value_resolution s action u n htyp hn).2 v hv
        exact ⟨s1, h⟩
  · intro err h
    constructor
    · rw [h]; rfl
    · simp only [execActions, h]

/-- C14 on three actions and a session that binds `city`: the action with a
numeric `value` fails with `InvalidArgumentType`, and after that failing call and
after an action of unknown type the session still binds only `city`. -/
theorem execute_rejects_without_effect_witness :
    Executor.Execute { NewEngine with Variables := [("city".toList, "Rome".toList)] }
        setBadValue "Oslo".toList = .error .InvalidArgumentType ∧
    (afterCall { NewEngine with Variables := [("city".toList, "Rome".toList)] }
        (Executor.Execute { NewEngine with Variables := [("city".toList, "Rome".toList)] }
          setBadValue "Oslo".toList)
        = ({ NewEngine with Variables := [("city".toList, "Rome".toList)] },
            some .InvalidArgumentType) ∧
      execActions "Oslo".toList [setBadValue]
          { NewEngine with Variables := [("city".toList, "Rome".toList)] }
        = ({ NewEngine with Variables := [("city".toList, "Rome".toList)] },
            some .InvalidArgumentType)) ∧
    Executor.Execute NewEngine { Typ := "log".toList, Args := [] } "Oslo".toList
      = .error (.UnknownActionType "log".toList) :=
  ⟨(execute_rejects_without_effect
      { NewEngine with Variables := [("city".toList, "Rome".toList)] } setBadValue
      "Oslo".toList).2.1 rfl ⟨"42".toList, by decide⟩,
    (execute_rejects_without_effect
      { NewEngine with Variables := [("city".toList, "Rome".toList)] } setBadValue
      "Oslo".toList).2.2.2.2 .InvalidArgumentType (by decide),
    (execute_rejects_without_effect NewEngine { Typ := "log".toList, Args := [] }
      "Oslo".toList).2.2.2.1 (by decide)⟩

/-! ## Fail-fast action lists -/

theorem execActions_fail (u : Str) (pre post : List Action) (a : Action) (s0 s1 : Session)
    (err : ActionError) (hpre : execActions u pre s0 = (s1, none))
    (hfail : Executor.Execute s1 a u = .error err) :
    execActions u (pre ++ a :: post) s0 = (s1, some err) := by
  induction pre generalizing s0 with
  | nil =>
    simp only [execActions, Prod.mk.injEq, and_true] at hpre
    subst hpre
    simp only [List.nil_append, execActions, hfail]
  | cons b rest ih =>
    simp only [List.cons_append, execActions] at hpre ⊢
    cases hb : Executor.Execute s0 b u with
    | error e => rw [hb] at hpre; simp at hpre
    | ok s2 =>
      rw [hb] at hpre
      simp only at hpre ⊢
      exact ih s2 hpre

theorem firstIntent_some_mem (test : Str → Bool) (intents : List Intent) (name : Str)
    (h : firstIntent test intents = some name) : ∃ it ∈ intents, it.Name = name := by
  induction intents with
  | nil => simp [firstIntent] at h
  | cons a rest ih =>
    simp only [firstIntent] at h
    split at h
    · injection h with h
      exact ⟨a, List.mem_cons_self _ _, h⟩
    · obtain ⟨it, hit, hname⟩ := ih h
      exact ⟨it, List.mem_cons_of_mem _ hit, hname⟩

theorem route_ok_mem (lower : Char → Char) (input : Str) (intents : List Intent) (name : Str)
    (h : RuleRouter.Route lower input intents = .ok name) :
    ∃ it ∈ intents, it.Name = name := by
  unfold RuleRouter.Route at h
  split at h
  · cases h
  · simp only at h
    split at h
    · rename_i n h1
      injection h with h
      subst h
      exact firstIntent_some_mem _ _ _ h1
    · split at h
      · rename_i n h2
        injection h with h
        subst h
        exact firstIntent_some_mem _ _ _ h2
      · split at h
        · rename_i n h3
          injection h with h
          subst h
          exact firstIntent_some_mem _ _ _ h3
        · cases h

theorem llmRoute_ok_mem (classify : Classifier) (input : Str) (intents : List Intent)
    (name : Str) (h : LLMRouter.Route classify input intents = .ok name) :
    ∃ it ∈ intents, it.Name = name := by
  unfold LLMRouter.Route at h
  split at h
  · cases h
  · simp only at h
    split at h
    · cases h
    · split at h
      · rename_i hany
        injection h with h
        subst h
        obtain ⟨it, hit, hname⟩ := List.any_eq_true.mp hany
        exact ⟨it, hit, by simpa using hname⟩
      · cases h

theorem routeInput_some_mem (ce : ConversationEngine) (clock : Nat) (u : Str)
    (intents : List Intent) (name : Str) (h : routeInput ce clock u intents = some name) :
    ∃ it ∈ intents, it.Name = name := by
  unfold routeInput at h
  split at h
  · rename_i n hr
    injection h with h
    subst h
    exact route_ok_mem _ _ _ _ hr
  · split at h
    · split at h
      · rename_i n hr
        injection h with h
        subst h
        exact llmRoute_ok_mem _ _ _ _ hr
      · cases h
    · cases h

theorem find_named (intents : List Intent) (name : Str)
    (h : ∃ it ∈ intents, it.Name = name) :
    ∃ intent, intents.find? (fun intent => decide (intent.Name = name)) = some intent ∧
      intent ∈ intents ∧ intent.Name = name := by
  induction intents with
  | nil => obtain ⟨it, hit, _⟩ := h; cases hit
  | cons a rest ih =>
    by_cases ha : a.Name = name
    · exact ⟨a, by simp [List.find?, ha], List.mem_cons_self _ _, ha⟩
    · have hrest : ∃ it ∈ rest, it.Name = name := by
        obtain ⟨it, hit, hname⟩ := h
        rcases List.mem_cons.mp hit with rfl | hit
        · exact absurd hname ha
        · exact ⟨it, hit, hname⟩
      obtain ⟨intent, hf, hmem, hname⟩ := ih hrest
      exact ⟨intent, by simp [List.find?, ha, hf], List.mem_cons_of_mem _ hmem, hname⟩

/-- C15. Fail-fast action lists without rollback: in a pass that runs the action
list of its node (the input-capture branch, the routing branch with a routed
intent, or the branch of a node without intents), when the actions before `a`
all succeed on the session (after the `SaveAs` capture, if any) and `a` fails,
`Run` returns that error, and the session is exactly the one those earlier
actions produced: same current node, same history, and nothing of the actions
after `a`. -/
theorem actions_fail_fast (ce : ConversationEngine) (w : World) (node : Node) (line : Str)
    (rest : List Str) (pre post : List Action) (a : Action) (s1 : Session) (err : ActionError)
    (hnode : Engine.GetCurrentNode ce.bot w.session = .ok node)
    (hterm : ¬ (node.Next = [] ∧ node.Intents = []))
    (hstdin : w.stdin = line :: rest)
    (hlist : node.Actions = pre ++ a :: post)
    (hruns : node.Input ≠ none ∨ node.Intents = [] ∨
      routeInput ce w.stdin.length (TrimSpace line) node.Intents ≠ none)
    (hpre : execActions (TrimSpace line) pre
      (match node.Input with
        | some inp => Engine.SetVariable w.session inp.SaveAs (TrimSpace line)
        | none => w.session) = (s1, none))
    (hfail : Executor.Execute s1 a (TrimSpace line) = .error err) :
    (iteration ce w).2 = .done (.error (.ActionFailed err)) ∧
    (iteration ce w).1.session = s1 ∧
    s1.CurrentNode = w.session.CurrentNode ∧ s1.History = w.session.History ∧
    (iteration ce w).1.stdin = rest := by
  have hall := execActions_fail (TrimSpace line) pre post a _ s1 err hpre hfail
  rw [← hlist] at hall
  have hframe := execActions_frame (TrimSpace line) node.Actions
    (match node.Input with
      | some inp => Engine.SetVariable w.session inp.SaveAs (TrimSpace line)
      | none => w.session)
  rw [hall] at hframe
  have hcur : s1.CurrentNode = w.session.CurrentNode := by
    rw [hframe.1]; cases node.Input <;> rfl
  have hhist : s1.History = w.session.History := by
    rw [hframe.2]; cases node.Input <;> rfl
  rw [iteration_read ce w node line rest hnode hterm hstdin]
  refine ⟨?_, ?_, hcur, hhist, ?_⟩ <;>
  · unfold handleInput
    cases hin : node.Input with
    | some inp =>
      rw [hin] at hall
      simp only [captureBranch, hall]
    | none =>
      rw [hin] at hall
      simp only at hall ⊢
      by_cases hI : node.Intents = []
      · have hN : node.Next ≠ [] := fun h => hterm ⟨h, hI⟩
        simp only [hI, List.length_nil, gt_iff_lt, lt_self_iff_false, if_false, hN, ne_eq,
          not_false_eq_true, if_true, plainBranch, hall]
      · have hlen : node.Intents.length > 0 := List.length_pos.mpr hI
        have hr : routeInput ce w.stdin.length (TrimSpace line) node.Intents ≠ none := by
          rcases hruns with h | h | h
          · exact absurd hin h
          · exact absurd h hI
          · exact h
        cases hroute : routeInput ce w.stdin.length (TrimSpace line) node.Intents with
        | none => exact absurd hroute hr
        | some name =>
          obtain ⟨intent, hfind, _, _⟩ :=
            find_named node.Intents name (routeInput_some_mem _ _ _ _ _ hroute)
          simp only [hlen, if_true, followIntent, hfind, hall]

/-- C15 on the action flow with the line "Oslo": `city` is bound by the first
action, the second fails on its numeric `value`, the third never binds `tier`,
and the session stays at `start` with an empty history. -/
theorem actions_fail_fast_witness :
    (iteration actionEngine ⟨NewEngine, ["Oslo".toList], []⟩).2
      = .done (.error (.ActionFailed .InvalidArgumentType)) ∧
    (iteration actionEngine ⟨NewEngine, ["Oslo".toList], []⟩).1.session
      = { CurrentNode := "start".toList, Variables := [("city".toList, "Oslo".toList)],
          History := [] } ∧
    ({ CurrentNode := "start".toList, Variables := [("city".toList, "Oslo".toList)],
       History := [] } : Session).CurrentNode = NewEngine.CurrentNode ∧
    ({ CurrentNode := "start".toList, Variables := [("city".toList, "Oslo".toList)],
       History := [] } : Session).History = NewEngine.History ∧
    (iteration actionEngine ⟨NewEngine, ["Oslo".toList], []⟩).1.stdin = [] :=
  actions_fail_fast actionEngine ⟨NewEngine, ["Oslo".toList], []⟩
    { Message := "City?".toList, Intents := [], Input := none,
      Actions := [setCity, setBadValue, setTier], Next := "done".toList }
    "Oslo".toList [] [setCity] [setTier] setBadValue
    { CurrentNode := "start".toList, Variables := [("city".toList, "Oslo".toList)],
      History := [] }
    .InvalidArgumentType (by decide) (by decide) rfl rfl (Or.inr (Or.inl rfl)) (by decide)
    (by decide)

/-! ## Validation -/

theorem mapGet_mem {β : Type} (key : Str) (value : β) (m : List (Str × β))
    (h : mapGet key m = some value) : (key, value) ∈ m := by
  induction m with
  | nil => simp [mapGet] at h
  | cons kv rest ih =>
    obtain ⟨k, v⟩ := kv
    simp only [mapGet] at h
    split at h
    · rename_i hk
      injection h with h
      subst hk; subst h
      exact List.mem_cons_self _ _
    · exact List.mem_cons_of_mem _ (ih h)

theorem checkIntents_ok (b : LoadedBot) (nodeName : Str) (intents : List Intent) :
    checkIntents b nodeName intents = .ok () ↔
      ∀ it ∈ intents, it.Next ≠ [] → mapGet it.Next b.Flows ≠ none := by
  induction intents with
  | nil => simp [checkIntents]
  | cons a rest ih =>
    simp only [checkIntents, List.mem_cons, forall_eq_or_imp]
    by_cases h : a.Next ≠ [] ∧ mapGet a.Next b.Flows = none
    · rw [if_pos h]
      constructor
      · intro h0; cases h0
      · rintro ⟨h1, _⟩; exact absurd h.2 (h1 h.1)
    · rw [if_neg h, ih]
      constructor
      · intro h2
        exact ⟨fun hne hnone => h ⟨hne, hnone⟩, h2⟩
      · rintro ⟨_, h2⟩; exact h2

theorem checkNodes_ok (b : LoadedBot) (nodes : List (Str × Option Node)) :
    checkNodes b nodes = .ok ↔
      ∀ p ∈ nodes, ∃ node, p.2 = some node ∧
        (node.Next ≠ [] → mapGet node.Next b.Flows ≠ none) ∧
        ∀ it ∈ node.Intents, it.Next ≠ [] → mapGet it.Next b.Flows ≠ none := by
  induction nodes with
  | nil => simp [checkNodes]
  | cons kv rest ih =>
    obtain ⟨nodeName, entry⟩ := kv
    cases entry with
    | none =>
      simp only [checkNodes, List.mem_cons, forall_eq_or_imp]
      constructor
      · intro h0; cases h0
      · rintro ⟨⟨node, hnode, _⟩, _⟩; cases hnode
    | some node =>
      simp only [checkNodes, List.mem_cons, forall_eq_or_imp]
      by_cases h : node.Next ≠ [] ∧ mapGet node.Next b.Flows = none
      · rw [if_pos h]
        constructor
        · intro h0; cases h0
        · rintro ⟨⟨n, hn, h1, _⟩, _⟩
          injection hn with hn
          subst hn
          exact absurd h.2 (h1 h.1)
      · rw [if_neg h]
        cases hc : checkIntents b nodeName node.Intents with
        | error err =>
          simp only
          constructor
          · intro h0; cases h0
          · rintro ⟨⟨n, hn, _, h2⟩, _⟩
            injection hn with hn
            subst hn
            have := (checkIntents_ok b nodeName node.Intents).mpr h2
            rw [hc] at this; cases this
        | ok u =>
          simp only [ih]
          have hi := (checkIntents_ok b nodeName node.Intents).mp hc
          constructor
          · intro h2
            exact ⟨⟨node, rfl, fun hne hnone => h ⟨hne, hnone⟩, hi⟩, h2⟩
          · rintro ⟨_, h2⟩; exact h2

theorem checkNodes_no_panic (b : LoadedBot) (nodes : List (Str × Option Node))
    (hnodes : ∀ p ∈ nodes, p.2 ≠ none) : checkNodes b nodes ≠ .panic := by
  induction nodes with
  | nil => simp [checkNodes]
  | cons kv rest ih =>
    obtain ⟨nodeName, entry⟩ := kv
    cases entry with
    | none => exact absurd rfl (hnodes (nodeName, none) (List.mem_cons_self _ _))
    | some node =>
      simp only [checkNodes]
      split
      · intro h0; cases h0
      · split
        · intro h0; cases h0
        · exact ih (fun p hp => hnodes p (List.mem_cons_of_mem _ hp))

theorem validateBasic_ok (b : LoadedBot) :
    Bot.ValidateBasic b = .ok () ↔
      (b.Name ≠ [] ∧ mapGet "start".toList b.Flows ≠ none) := by
  unfold Bot.ValidateBasic
  by_cases hn : b.Name = []
  · simp [hn]
  · simp only [hn, if_false, ne_eq, not_false_eq_true, true_and]
    by_cases hl : b.Flows.length = 0
    · have : b.Flows = [] := List.length_eq_zero.mp hl
      simp [this, mapGet]
    · simp only [hl, if_false]
      cases mapGet "start".toList b.Flows with
      | none => simp
      | some node => simp

theorem validateFlow_ok (order : List (Str × Option Node) → List (Str × Option Node))
    (b : LoadedBot) :
    ValidateFlow order b = .ok ↔
      (b.Name ≠ [] ∧ mapGet "start".toList b.Flows ≠ none ∧
        ∀ p ∈ order b.Flows, ∃ node, p.2 = some node ∧
          (node.Next ≠ [] → mapGet node.Next b.Flows ≠ none) ∧
          ∀ it ∈ node.Intents, it.Next ≠ [] → mapGet it.Next b.Flows ≠ none) := by
  unfold ValidateFlow
  cases hb : Bot.ValidateBasic b with
  | error err =>
    simp only
    constructor
    · intro h0; cases h0
    · rintro ⟨h1, h2, _⟩
      have := (validateBasic_ok b).mpr ⟨h1, h2⟩
      rw [hb] at this; cases this
  | ok u =>
    have := (validateBasic_ok b).mp hb
    simp only [checkNodes_ok]
    constructor
    · intro h; exact ⟨this.1, this.2, h⟩
    · rintro ⟨_, _, h⟩; exact h

theorem validateFlow_no_panic (order : List (Str × Option Node) → List (Str × Option Node))
    (b : LoadedBot) (horder : (order b.Flows).Perm b.Flows)
    (hnodes : ∀ p ∈ b.Flows, p.2 ≠ none) : ValidateFlow order b ≠ .panic := by
  unfold ValidateFlow
  cases Bot.ValidateBasic b with
  | error err => intro h0; cases h0
  | ok u => exact checkNodes_no_panic b _ (fun p hp => hnodes p (horder.mem_iff.mp hp))

/-- C17, as stated, fails on two bots whose flow contains `start` and has only
resolvable references: the greeting flow under an empty bot name is refused with
"bot name is required", and on a named bot whose `start` value is nil the loop
reads `node.Next` of the nil node and panics, so no `nil` is returned either. -/
theorem validate_nameless_counterexample :
    (mapGet "start".toList namelessBot.Flows ≠ none ∧
      (∀ p ∈ namelessBot.Flows, ∀ node ∈ p.2,
        (node.Next ≠ [] → mapGet node.Next namelessBot.Flows ≠ none) ∧
        ∀ it ∈ node.Intents, it.Next ≠ [] → mapGet it.Next namelessBot.Flows ≠ none) ∧
      ValidateFlow id namelessBot = .error .NameRequired) ∧
    (nilStartBot.Name ≠ [] ∧
      mapGet "start".toList nilStartBot.Flows ≠ none ∧
      (∀ p ∈ nilStartBot.Flows, ∀ node ∈ p.2,
        (node.Next ≠ [] → mapGet node.Next nilStartBot.Flows ≠ none) ∧
        ∀ it ∈ node.Intents, it.Next ≠ [] → mapGet it.Next nilStartBot.Flows ≠ none) ∧
      ValidateFlow id nilStartBot = .panic) := by
  decide

/-- C17, amended: validation accepts every well-formed graph of a named bot with
no nil node. For every bot with a non-empty name, none of whose flow values is
nil, whose flow contains a node named `start` and in which every non-empty node
`Next` and intent `Next` is a key of the flow, `ValidateFlow` returns no error,
in whatever order it visits the nodes. -/
theorem validate_accepts_wellformed
    (order : List (Str × Option Node) → List (Str × Option Node)) (b : LoadedBot)
    (horder : (order b.Flows).Perm b.Flows)
    (hname : b.Name ≠ [])
    (hnodes : ∀ p ∈ b.Flows, p.2 ≠ none)
    (hstart : mapGet "start".toList b.Flows ≠ none)
    (hrefs : ∀ p ∈ b.Flows, ∀ node ∈ p.2,
      (node.Next ≠ [] → mapGet node.Next b.Flows ≠ none) ∧
      ∀ it ∈ node.Intents, it.Next ≠ [] → mapGet it.Next b.Flows ≠ none) :
    ValidateFlow order b = .ok := by
  rw [validateFlow_ok]
  refine ⟨hname, hstart, fun p hp => ?_⟩
  have hmem := horder.mem_iff.mp hp
  cases hp2 : p.2 with
  | none => exact absurd hp2 (hnodes p hmem)
  | some node => exact ⟨node, rfl, hrefs p hmem node (by rw [hp2]; rfl)⟩

/-- C17 amended, on the greeting flow visited in reverse order. -/
theorem validate_accepts_wellformed_witness :
    ValidateFlow List.reverse greetBot.loaded = .ok :=
  validate_accepts_wellformed List.reverse greetBot.loaded (List.reverse_perm _) (by decide)
    (by decide) (by decide) (by decide)

/-- C18. Validation rejects every broken graph: when the flow has no node named
`start`, or some node of the flow has a non-empty `Next`, or an intent with a
non-empty `Next`, that is not a key of the flow, `ValidateFlow` never accepts, in
whatever order it visits the nodes; and it returns an error whenever no flow
value is nil (a nil value visited before the broken node makes it panic
instead). -/
theorem validate_rejects_broken
    (order : List (Str × Option Node) → List (Str × Option Node)) (b : LoadedBot)
    (horder : (order b.Flows).Perm b.Flows)
    (hbroken : mapGet "start".toList b.Flows = none ∨
      ∃ name node, mapGet name b.Flows = some (some node) ∧
        ((node.Next ≠ [] ∧ mapGet node.Next b.Flows = none) ∨
          ∃ it ∈ node.Intents, it.Next ≠ [] ∧ mapGet it.Next b.Flows = none)) :
    ValidateFlow order b ≠ .ok ∧
    ((∀ p ∈ b.Flows, p.2 ≠ none) → ∃ err, ValidateFlow order b = .error err) := by
  have hnot : ValidateFlow order b ≠ .ok := by
    intro hv
    obtain ⟨_, hstart, hrefs⟩ := (validateFlow_ok order b).mp hv
    rcases hbroken with h | ⟨name, node, hget, h⟩
    · exact hstart h
    · have hmem : (name, some node) ∈ order b.Flows :=
        horder.mem_iff.mpr (mapGet_mem name (some node) b.Flows hget)
      obtain ⟨n, hn, h1, h2⟩ := hrefs (name, some node) hmem
      injection hn with hn
      subst hn
      rcases h with ⟨hne, hnone⟩ | ⟨it, hit, hne, hnone⟩
      · exact h1 hne hnone
      · exact h2 it hit hne hnone
  refine ⟨hnot, fun hnodes => ?_⟩
  cases hv : ValidateFlow order b with
  | ok => exact absurd hv hnot
  | error err => exact ⟨err, rfl⟩
  | panic => exact absurd hv (validateFlow_no_panic order b horder hnodes)

/-- C18 on the action flow without its `done` node, whose `start` then refers to
a missing node: visited in reverse order it is refused with an error, and with a
nil flow value in front it is not accepted either. -/
theorem validate_rejects_broken_witness :
    (∃ err, ValidateFlow List.reverse danglingBot = .error err) ∧
    ValidateFlow id brokenBot ≠ .ok ∧
    ValidateFlow List.reverse brokenBot ≠ .ok :=
  ⟨(validate_rejects_broken List.reverse danglingBot (List.reverse_perm _)
      (Or.inr ⟨"start".toList,
        { Message := "City?".toList, Intents := [], Input := none,
          Actions := [setCity, setBadValue, setTier], Next := "done".toList },
        by decide, Or.inl (by decide)⟩)).2 (by decide),
    (validate_rejects_broken id brokenBot (List.Perm.refl _)
      (Or.inr ⟨"start".toList,
        { Message := "City?".toList, Intents := [], Input := none,
          Actions := [setCity, setBadValue, setTier], Next := "done".toList },
        by decide, Or.inl (by decide)⟩)).1,
    (validate_rejects_broken List.reverse brokenBot (List.reverse_perm _)
      (Or.inr ⟨"start".toList,
        { Message := "City?".toList, Intents := [], Input := none,
          Actions := [setCity, setBadValue, setTier], Next := "done".toList },
        by decide, Or.inl (by decide)⟩)).1⟩

/-! ## Runs -/

theorem iteration_terminal (ce : ConversationEngine) (w : World) (node : Node)
    (hnode : Engine.GetCurrentNode ce.bot w.session = .ok node)
    (hnext : node.Next = []) (hintents : node.Intents = []) :
    iteration ce w =
      ({ session := w.session, stdin := w.stdin,
         stdout := w.stdout ++
           [.message (CLIRenderer.RenderMessage (ce.order w.stdin.length) node w.session)] },
        .done (.ok ())) := by
  have hT : Engine.IsTerminal ce.bot w.session = .ok true := by
    simp [Engine.IsTerminal, hnode, hnext, hintents]
  simp only [iteration, hnode, hT]

theorem render_no_variables (order : List (Str × Str) → List (Str × Str)) (node : Node)
    (s : Session) (hvars : s.Variables = []) (horder : (order []).Perm []) :
    CLIRenderer.RenderMessage order node s = node.Message := by
  unfold CLIRenderer.RenderMessage
  rw [hvars, horder.eq_nil]
  rfl

/-- C19. The greeting scenario end to end: on the flow `start` ("Hi!", intent
`greet` with examples "hello" and "hi", next `farewell`) and `farewell` ("Bye"),
from a fresh session and the single input line "hi", `Run` returns success after
printing "Hi!" and then "Bye", with the session at `farewell` and one Turn in the
history; this holds for every provider, case table and map traversal order. -/
theorem greeting_scenario (provider : Option (Nat → Classifier)) (lower : Char → Char)
    (order : Nat → List (Str × Str) → List (Str × Str))
    (horder : ∀ n vars, (order n vars).Perm vars) :
    ConversationEngine.Run
        { bot := greetBot, llmProvider := provider, lower := lower, order := order }
        ⟨NewEngine, ["hi".toList], []⟩ =
      (⟨{ CurrentNode := "farewell".toList, Variables := [],
          History := [{ Node := "Hi!".toList, UserInput := "hi".toList,
                        Response := "Hi!".toList }] },
        [],
        [.message "Hi!".toList, .intents greetIntents, .prompt, .message "Bye".toList]⟩,
        some (.ok ())) := by
  have hroute : RuleRouter.Route lower "hi".toList greetIntents = .ok "greet".toList := by
    apply route_of_exact
    have ht : TrimSpace "hi".toList = "hi".toList := by decide
    have hhi : exactTest lower (ToLower lower (TrimSpace "hi".toList)) "hi".toList = true := by
      rw [ht]; simp [exactTest]
    simp only [firstIntent, greetIntents, List.any_cons, hhi, Bool.or_true, Bool.true_or,
      if_true]
  have h1 : iteration
      { bot := greetBot, llmProvider := provider, lower := lower, order := order }
      ⟨NewEngine, ["hi".toList], []⟩ =
      (⟨{ CurrentNode := "farewell".toList, Variables := [],
          History := [{ Node := "Hi!".toList, UserInput := "hi".toList,
                        Response := "Hi!".toList }] },
        [], [.message "Hi!".toList, .intents greetIntents, .prompt]⟩, .loop) := by
    rw [iteration_read _ _
      { Message := "Hi!".toList, Intents := greetIntents, Input := none, Actions := [],
        Next := [] } "hi".toList []
      (show Engine.GetCurrentNode greetBot NewEngine = .ok _ from by decide) (by decide) rfl]
    rw [render_no_variables _ _ _ rfl (horder _ _)]
    have ht : TrimSpace "hi".toList = "hi".toList := by decide
    simp only [handleInput, ht, routeInput, hroute]
    rfl
  have h2 : iteration
      { bot := greetBot, llmProvider := provider, lower := lower, order := order }
      ⟨{ CurrentNode := "farewell".toList, Variables := [],
          History := [{ Node := "Hi!".toList, UserInput := "hi".toList,
                        Response := "Hi!".toList }] },
        [], [.message "Hi!".toList, .intents greetIntents, .prompt]⟩ =
      (⟨{ CurrentNode := "farewell".toList, Variables := [],
          History := [{ Node := "Hi!".toList, UserInput := "hi".toList,
                        Response := "Hi!".toList }] },
        [],
        [.message "Hi!".toList, .intents greetIntents, .prompt, .message "Bye".toList]⟩,
        .done (.ok ())) := by
    rw [iteration_terminal _ _
      { Message := "Bye".toList, Intents := [], Input := none, Actions := [], Next := [] }
      (show Engine.GetCurrentNode greetBot _ = .ok _ from by decide) rfl rfl]
    rw [render_no_variables _ _ _ rfl (horder _ _)]
    rfl
  simp only [ConversationEngine.Run, runLoop, h1, h2]

/-- C19 with no provider, the ASCII case table and the bindings visited in
stored order. -/
theorem greeting_scenario_witness :
    ConversationEngine.Run
        { bot := greetBot, llmProvider := none, lower := asciiLower,
          order := fun _ vars => vars }
        ⟨NewEngine, ["hi".toList], []⟩ =
      (⟨{ CurrentNode := "farewell".toList, Variables := [],
          History := [{ Node := "Hi!".toList, UserInput := "hi".toList,
                        Response := "Hi!".toList }] },
        [],
        [.message "Hi!".toList, .intents greetIntents, .prompt, .message "Bye".toList]⟩,
        some (.ok ())) :=
  greeting_scenario none asciiLower (fun _ vars => vars) (fun _ vars => List.Perm.refl vars)

theorem mapGet_loaded (key : Str) (b : Bot) :
    mapGet key b.loaded.Flows = (mapGet key b.Flows).map some := by
  unfold Bot.loaded
  simp only
  induction b.Flows with
  | nil => rfl
  | cons kv rest ih =>
    obtain ⟨k, v⟩ := kv
    by_cases hk : k = key
    · simp [mapGet, hk]
    · simp [mapGet, hk, ih]

theorem mapGet_loaded_none (key : Str) (b : Bot) :
    mapGet key b.loaded.Flows = none ↔ mapGet key b.Flows = none := by
  rw [mapGet_loaded]
  cases mapGet key b.Flows <;> simp

/-- A bot that `ValidateFlow` accepts has no nil flow value: it is the loaded
form of a bot of the engine. -/
theorem accepted_is_loaded (vorder : List (Str × Option Node) → List (Str × Option Node))
    (lb : LoadedBot) (hperm : (vorder lb.Flows).Perm lb.Flows)
    (hvalid : ValidateFlow vorder lb = .ok) : ∃ b : Bot, b.loaded = lb := by
  obtain ⟨_, _, hrefs⟩ := (validateFlow_ok vorder lb).mp hvalid
  have hsome : ∀ p ∈ lb.Flows, ∃ node, p.2 = some node := by
    intro p hp
    obtain ⟨node, hnode, _⟩ := hrefs p (hperm.mem_iff.mpr hp)
    exact ⟨node, hnode⟩
  have hlist : ∀ l : List (Str × Option Node), (∀ p ∈ l, ∃ node, p.2 = some node) →
      ∃ m : List (Str × Node), m.map (fun p => (p.1, some p.2)) = l := by
    intro l
    induction l with
    | nil => intro _; exact ⟨[], rfl⟩
    | cons kv rest ih =>
      intro h
      obtain ⟨m, hm⟩ := ih (fun p hp => h p (List.mem_cons_of_mem _ hp))
      obtain ⟨node, hnode⟩ := h kv (List.mem_cons_self _ _)
      obtain ⟨k, v⟩ := kv
      simp only at hnode
      subst hnode
      exact ⟨(k, node) :: m, by simp [hm]⟩
  obtain ⟨m, hm⟩ := hlist lb.Flows hsome
  refine ⟨{ Name := lb.Name, Flows := m }, ?_⟩
  cases lb with
  | mk name flows =>
    simp only at hm
    simp [Bot.loaded, hm]

theorem valid_refs (vorder : List (Str × Option Node) → List (Str × Option Node)) (b : Bot)
    (hperm : (vorder b.loaded.Flows).Perm b.loaded.Flows)
    (hvalid : ValidateFlow vorder b.loaded = .ok)
    (name : Str) (node : Node) (hget : mapGet name b.Flows = some node) :
    (node.Next ≠ [] → mapGet node.Next b.Flows ≠ none) ∧
      ∀ it ∈ node.Intents, it.Next ≠ [] → mapGet it.Next b.Flows ≠ none := by
  obtain ⟨_, _, hrefs⟩ := (validateFlow_ok vorder b.loaded).mp hvalid
  have hget2 : mapGet name b.loaded.Flows = some (some node) := by
    rw [mapGet_loaded, hget]; rfl
  obtain ⟨n, hn, h1, h2⟩ := hrefs (name, some node)
    (hperm.mem_iff.mpr (mapGet_mem name (some node) b.loaded.Flows hget2))
  injection hn with hn
  subst hn
  exact ⟨fun hne hnone => h1 hne ((mapGet_loaded_none _ b).mpr hnone),
    fun it hit hne hnone => h2 it hit hne ((mapGet_loaded_none _ b).mpr hnone)⟩

theorem transition_of_key (bot : Bot) (s : Session) (t : Str) (hne : t ≠ [])
    (hkey : mapGet t bot.Flows ≠ none) :
    Engine.Transition bot s t = .ok { s with CurrentNode := t } := by
  cases hk : mapGet t bot.Flows with
  | none => exact absurd hk hkey
  | some node => exact transition_ok bot s t node hne hk

/-- The three branches that run actions and then move: on a session whose
current node is a key, with a target that is empty or a key, the session stays
on a key and the only possible error is a failed action. -/
theorem actions_then_move (bot : Bot) (u : Str) (actions : List Action) (s : Session)
    (t : Str) (hinv : mapGet s.CurrentNode bot.Flows ≠ none)
    (ht : t ≠ [] → mapGet t bot.Flows ≠ none) :
    ∀ r : Session × Option RunError,
      r = (match execActions u actions s with
        | (s1, some err) => (s1, some (.ActionFailed err))
        | (s1, none) =>
          if t ≠ [] then
            match Engine.Transition bot s1 t with
            | .error err => (s1, some err)
            | .ok s2 => (s2, none)
          else (s1, none)) →
      mapGet r.1.CurrentNode bot.Flows ≠ none ∧
        (r.2 = none ∨ ∃ e, r.2 = some (.ActionFailed e)) := by
  intro r hr
  have hf := execActions_frame u actions s
  rcases hx : execActions u actions s with ⟨s1, err⟩
  rw [hx] at hr hf
  simp only at hf
  cases err with
  | some e =>
    simp only at hr
    subst hr
    exact ⟨by simpa [hf.1] using hinv, Or.inr ⟨e, rfl⟩⟩
  | none =>
    simp only at hr
    by_cases hne : t = []
    · simp only [hne, ne_eq, not_true_eq_false, if_false] at hr
      subst hr
      exact ⟨by simpa [hf.1] using hinv, Or.inl rfl⟩
    · simp only [hne, ne_eq, not_false_eq_true, if_true,
        transition_of_key bot s1 t hne (ht hne)] at hr
      subst hr
      exact ⟨ht hne, Or.inl rfl⟩

theorem handleInput_keeps_current (ce : ConversationEngine) (clock : Nat) (node : Node)
    (message u : Str) (w : World)
    (hinv : mapGet w.session.CurrentNode ce.bot.Flows ≠ none)
    (hnext : node.Next ≠ [] → mapGet node.Next ce.bot.Flows ≠ none)
    (hintents : ∀ it ∈ node.Intents, it.Next ≠ [] → mapGet it.Next ce.bot.Flows ≠ none) :
    mapGet (handleInput ce clock node message u w).1.session.CurrentNode ce.bot.Flows ≠ none ∧
    ((handleInput ce clock node message u w).2 = .loop ∨
      ∃ e, (handleInput ce clock node message u w).2 = .done (.error (.ActionFailed e))) := by
  unfold handleInput
  cases hin : node.Input with
  | some inp =>
    simp only
    have h := actions_then_move ce.bot u node.Actions
      (Engine.SetVariable w.session inp.SaveAs u) node.Next hinv hnext _ rfl
    rcases hx : execActions u node.Actions (Engine.SetVariable w.session inp.SaveAs u)
      with ⟨s2, err⟩
    rw [hx] at h
    simp only [captureBranch, hx]
    cases err with
    | some e => exact ⟨h.1, Or.inr ⟨e, rfl⟩⟩
    | none =>
      simp only at h ⊢
      by_cases hne : node.Next = []
      · simp only [hne, ne_eq, not_true_eq_false, if_false] at h ⊢
        exact ⟨h.1, Or.inl (by simp)⟩
      · simp only [hne, ne_eq, not_false_eq_true, if_true,
          transition_of_key ce.bot s2 node.Next hne (hnext hne)] at h ⊢
        exact ⟨h.1, Or.inl (by simp)⟩
  | none =>
    simp only
    by_cases hI : node.Intents.length > 0
    · simp only [hI, if_true]
      cases hroute : routeInput ce clock u node.Intents with
      | none => exact ⟨hinv, Or.inl (by simp)⟩
      | some name =>
        simp only
        unfold followIntent
        cases hfind : node.Intents.find? (fun intent => decide (intent.Name = name)) with
        | none => exact ⟨hinv, Or.inl (by simp)⟩
        | some intent =>
          have hmem : intent ∈ node.Intents := List.mem_of_find?_eq_some hfind
          have h := actions_then_move ce.bot u node.Actions w.session intent.Next hinv
            (hintents intent hmem) _ rfl
          simp only
          rcases hx : execActions u node.Actions w.session with ⟨s1, err⟩
          rw [hx] at h
          cases err with
          | some e => exact ⟨h.1, Or.inr ⟨e, rfl⟩⟩
          | none =>
            simp only at h ⊢
            by_cases hne : intent.Next = []
            · simp only [hne, ne_eq, not_true_eq_false, if_false] at h ⊢
              exact ⟨h.1, Or.inl (by simp)⟩
            · simp only [hne, ne_eq, not_false_eq_true, if_true,
                transition_of_key ce.bot s1 intent.Next hne (hintents intent hmem hne)] at h ⊢
              exact ⟨h.1, Or.inl (by simp)⟩
    · simp only [hI, if_false]
      by_cases hne : node.Next = []
      · simp only [hne, ne_eq, not_true_eq_false, if_false]
        exact ⟨hinv, Or.inl (by simp)⟩
      · simp only [hne, ne_eq, not_false_eq_true, if_true]
        have h := actions_then_move ce.bot u node.Actions w.session node.Next hinv hnext _ rfl
        unfold plainBranch
        rcases hx : execActions u node.Actions w.session with ⟨s1, err⟩
        rw [hx] at h
        cases err with
        | some e => exact ⟨h.1, Or.inr ⟨e, rfl⟩⟩
        | none =>
          simp only [hne, ne_eq, not_false_eq_true, if_true,
            transition_of_key ce.bot s1 node.Next hne (hnext hne)] at h ⊢
          exact ⟨h.1, Or.inl (by simp)⟩

theorem iteration_keeps_current (ce : ConversationEngine) (w : World)
    (hrefs : ∀ name node, mapGet name ce.bot.Flows = some node →
      (node.Next ≠ [] → mapGet node.Next ce.bot.Flows ≠ none) ∧
        ∀ it ∈ node.Intents, it.Next ≠ [] → mapGet it.Next ce.bot.Flows ≠ none)
    (hinv : mapGet w.session.CurrentNode ce.bot.Flows ≠ none) :
    mapGet (iteration ce w).1.session.CurrentNode ce.bot.Flows ≠ none ∧
    ((iteration ce w).2 = .loop ∨ (iteration ce w).2 = .done (.ok ()) ∨
      (iteration ce w).2 = .done (.error .ReadInput) ∨
      ∃ e, (iteration ce w).2 = .done (.error (.ActionFailed e))) := by
  cases hget : mapGet w.session.CurrentNode ce.bot.Flows with
  | none => exact absurd hget hinv
  | some node =>
    have hnode : Engine.GetCurrentNode ce.bot w.session = .ok node := by
      simp only [Engine.GetCurrentNode, hget]
    obtain ⟨hnext, hintents⟩ := hrefs _ node hget
    by_cases hterm : node.Next = [] ∧ node.Intents = []
    · rw [iteration_terminal ce w node hnode hterm.1 hterm.2]
      exact ⟨hinv, Or.inr (Or.inl rfl)⟩
    · cases hstdin : w.stdin with
      | nil =>
        have hT : Engine.IsTerminal ce.bot w.session = .ok false := by
          simp only [Engine.IsTerminal, hnode]
          congr 1
          by_cases h1 : node.Next = []
          · have h3 : node.Intents.length ≠ 0 := fun h =>
              hterm ⟨h1, List.length_eq_zero.mp h⟩
            simp [h1, h3]
          · simp [h1]
        have hit : (iteration ce w).1.session = w.session ∧
            (iteration ce w).2 = .done (.error .ReadInput) := by
          simp only [iteration, hnode, hT]
          by_cases hI : node.Intents.length > 0
          · simp [hI, CLIRenderer.ReadInput, hstdin]
          · simp [hI, CLIRenderer.ReadInput, hstdin]
        rw [hit.1]
        exact ⟨hinv, Or.inr (Or.inr (Or.inl hit.2))⟩
      | cons line rest =>
        rw [iteration_read ce w node line rest hnode hterm hstdin]
        obtain ⟨h1, h2⟩ := handleInput_keeps_current ce w.stdin.length node
          (CLIRenderer.RenderMessage (ce.order w.stdin.length) node w.session)
          (TrimSpace line)
          { session := w.session, stdin := rest,
            stdout := (if node.Intents.length > 0 then
                w.stdout ++ [.message
                  (CLIRenderer.RenderMessage (ce.order w.stdin.length) node
                    w.session)] ++
                  [.intents node.Intents]
              else
                w.stdout ++ [.message
                  (CLIRenderer.RenderMessage (ce.order w.stdin.length) node
                    w.session)]) ++
              [.prompt] }
          hinv hnext hintents
        refine ⟨h1, ?_⟩
        rcases h2 with h2 | h2
        · exact Or.inl h2
        · exact Or.inr (Or.inr (Or.inr h2))

theorem runLoop_keeps_current (ce : ConversationEngine)
    (hrefs : ∀ name node, mapGet name ce.bot.Flows = some node →
      (node.Next ≠ [] → mapGet node.Next ce.bot.Flows ≠ none) ∧
        ∀ it ∈ node.Intents, it.Next ≠ [] → mapGet it.Next ce.bot.Flows ≠ none)
    (fuel : Nat) (w : World) (hinv : mapGet w.session.CurrentNode ce.bot.Flows ≠ none) :
    mapGet (runLoop ce fuel w).1.session.CurrentNode ce.bot.Flows ≠ none ∧
    (∀ name, (runLoop ce fuel w).2 ≠ some (.error (.NodeNotFound name))) ∧
    (∀ t, (runLoop ce fuel w).2 ≠ some (.error (.InvalidTransition t))) := by
  induction fuel generalizing w with
  | zero =>
    simp only [runLoop]
    exact ⟨hinv, (fun _ h => by cases h), (fun _ h => by cases h)⟩
  | succ n ih =>
    obtain ⟨h1, h2⟩ := iteration_keeps_current ce w hrefs hinv
    simp only [runLoop]
    rcases hx : iteration ce w with ⟨w1, step⟩
    rw [hx] at h1 h2
    simp only at h1 h2
    cases step with
    | loop => exact ih w1 h1
    | done result =>
      simp only
      refine ⟨h1, ?_, ?_⟩
      · intro name h
        injection h with h
        subst h
        rcases h2 with h | h | h | ⟨e, h⟩ <;> cases h
      · intro t h
        injection h with h
        subst h
        rcases h2 with h | h | h | ⟨e, h⟩ <;> cases h

/-- C20. The current node always resolves on a validated flow: every bot that
`ValidateFlow` accepts is free of nil nodes, so it is a bot of the engine; and
for every engine on it, every list of input lines, every provider, and every
number of passes of the loop of `Run` from a fresh session, the current node of
the session reached is a key of the flow, so `GetCurrentNode` succeeds on it, and
`Run` has returned neither `NodeNotFound` nor `InvalidTransition`; the same holds
for the complete run. -/
theorem current_node_resolves (lb : LoadedBot)
    (vorder : List (Str × Option Node) → List (Str × Option Node)) (stdin : List Str)
    (fuel : Nat)
    (hperm : (vorder lb.Flows).Perm lb.Flows)
    (hvalid : ValidateFlow vorder lb = .ok) :
    (∃ b : Bot, b.loaded = lb) ∧
    ∀ ce : ConversationEngine, ce.bot.loaded = lb →
      (mapGet (runLoop ce fuel ⟨NewEngine, stdin, []⟩).1.session.CurrentNode ce.bot.Flows
          ≠ none ∧
        (∃ node, Engine.GetCurrentNode ce.bot
          (runLoop ce fuel ⟨NewEngine, stdin, []⟩).1.session = .ok node) ∧
        (∀ name, (runLoop ce fuel ⟨NewEngine, stdin, []⟩).2
          ≠ some (.error (.NodeNotFound name))) ∧
        (∀ t, (runLoop ce fuel ⟨NewEngine, stdin, []⟩).2
          ≠ some (.error (.InvalidTransition t)))) ∧
      (mapGet (ce.Run ⟨NewEngine, stdin, []⟩).1.session.CurrentNode ce.bot.Flows ≠ none ∧
        (∀ name, (ce.Run ⟨NewEngine, stdin, []⟩).2 ≠ some (.error (.NodeNotFound name))) ∧
        (∀ t, (ce.Run ⟨NewEngine, stdin, []⟩).2
          ≠ some (.error (.InvalidTransition t)))) := by
  refine ⟨accepted_is_loaded vorder lb hperm hvalid, ?_⟩
  intro ce hbot
  subst hbot
  have hrefs := valid_refs vorder ce.bot hperm hvalid
  have hstart : mapGet (NewEngine).CurrentNode ce.bot.Flows ≠ none := fun h =>
    ((validateFlow_ok vorder ce.bot.loaded).mp hvalid).2.1
      ((mapGet_loaded_none _ ce.bot).mpr h)
  have key := fun n => runLoop_keeps_current ce hrefs n ⟨NewEngine, stdin, []⟩ hstart
  refine ⟨⟨(key fuel).1, ?_, (key fuel).2.1, (key fuel).2.2⟩, key _⟩
  have h := (key fuel).1
  cases hget : mapGet (runLoop ce fuel ⟨NewEngine, stdin, []⟩).1.session.CurrentNode
      ce.bot.Flows with
  | none => exact absurd hget h
  | some node => exact ⟨node, by simp only [Engine.GetCurrentNode, hget]⟩

/-- C20 on the greeting flow with the lines "xyz" and "hi", after two passes and
after the complete run. -/
theorem current_node_resolves_witness :
    (mapGet (runLoop greetEngine 2 ⟨NewEngine, ["xyz".toList, "hi".toList], []⟩).1.session.CurrentNode
        greetEngine.bot.Flows ≠ none ∧
      (∃ node, Engine.GetCurrentNode greetEngine.bot
        (runLoop greetEngine 2 ⟨NewEngine, ["xyz".toList, "hi".toList], []⟩).1.session
        = .ok node) ∧
      (∀ name, (runLoop greetEngine 2 ⟨NewEngine, ["xyz".toList, "hi".toList], []⟩).2
        ≠ some (.error (.NodeNotFound name))) ∧
      (∀ t, (runLoop greetEngine 2 ⟨NewEngine, ["xyz".toList, "hi".toList], []⟩).2
        ≠ some (.error (.InvalidTransition t)))) ∧
    (mapGet (greetEngine.Run ⟨NewEngine, ["xyz".toList, "hi".toList], []⟩).1.session.CurrentNode
        greetEngine.bot.Flows ≠ none ∧
      (∀ name, (greetEngine.Run ⟨NewEngine, ["xyz".toList, "hi".toList], []⟩).2
        ≠ some (.error (.NodeNotFound name))) ∧
      (∀ t, (greetEngine.Run ⟨NewEngine, ["xyz".toList, "hi".toList], []⟩).2
        ≠ some (.error (.InvalidTransition t)))) :=
  (current_node_resolves greetBot.loaded id ["xyz".toList, "hi".toList] 2 (List.Perm.refl _)
    (by decide)).2 greetEngine rfl

/-! ## Rendering -/

theorem placeholder_eq (key : Str) :
    placeholder key = '\x7b' :: '\x7b' :: (key ++ ['\x7d', '\x7d']) := by
  simp [placeholder]

theorem replaceFrom_skip (old new : Str) (dropped rest : Str) :
    replaceFrom old new dropped.length (dropped ++ rest) = replaceFrom old new 0 rest := by
  induction dropped with
  | nil => rfl
  | cons c cs ih => simpa [replaceFrom] using ih

theorem replaceFrom_match (old new rest : Str) (hne : old ≠ []) :
    replaceFrom old new 0 (old ++ rest) = new ++ replaceFrom old new 0 rest := by
  cases old with
  | nil => exact absurd rfl hne
  | cons c cs =>
    have hp : HasPrefix (c :: (cs ++ rest)) (c :: cs) = true :=
      (hasPrefix_iff _ _).mpr (List.prefix_append (c :: cs) rest)
    have hs := replaceFrom_skip (c :: cs) new cs rest
    show replaceFrom (c :: cs) new 0 (c :: (cs ++ rest)) = _
    simp only [replaceFrom, hp, if_true, List.length_cons, Nat.add_sub_cancel, hs]

theorem replaceFrom_keep (old new rest : Str) (c : Char)
    (h : HasPrefix (c :: rest) old = false) :
    replaceFrom old new 0 (c :: rest) = c :: replaceFrom old new 0 rest := by
  simp [replaceFrom, h]

/-- Characters other than the opening brace are copied when the pattern is a
placeholder. -/
theorem replaceFrom_no_open (key new : Str) (t rest : Str)
    (ht : ∀ c ∈ t, c ≠ '\x7b') :
    replaceFrom (placeholder key) new 0 (t ++ rest) =
      t ++ replaceFrom (placeholder key) new 0 rest := by
  induction t with
  | nil => rfl
  | cons c cs ih =>
    have hc : c ≠ '\x7b' := ht c (List.mem_cons_self _ _)
    have hp : HasPrefix (c :: (cs ++ rest)) (placeholder key) = false := by
      rw [placeholder_eq]
      simp [HasPrefix, hc]
    rw [List.cons_append, replaceFrom_keep _ _ _ _ hp,
      ih (fun d hd => ht d (List.mem_cons_of_mem _ hd))]
    rfl

theorem closing_no_prefix (key other rest : Str) (hkey : braceFree key)
    (hother : braceFree other) (hne : other ≠ key) :
    HasPrefix (other ++ ['\x7d', '\x7d'] ++ rest) (key ++ ['\x7d', '\x7d']) = false := by
  induction key generalizing other with
  | nil =>
    cases other with
    | nil => exact absurd rfl hne
    | cons b bs =>
      have hb : b ≠ '\x7d' := (hother b (List.mem_cons_self _ _)).2
      have hb2 : ¬ b = '\x7d' := hb
      simp [HasPrefix, hb2]
  | cons a as ih =>
    have ha : a ≠ '\x7d' := (hkey a (List.mem_cons_self _ _)).2
    cases other with
    | nil =>
      have ha2 : ¬ '\x7d' = a := fun h => ha h.symm
      simp [HasPrefix, ha2]
    | cons b bs =>
      by_cases hab : b = a
      · subst hab
        have hne2 : bs ≠ as := fun h => hne (by rw [h])
        have := ih bs (fun c hc => hkey c (List.mem_cons_of_mem _ hc))
          (fun c hc => hother c (List.mem_cons_of_mem _ hc)) hne2
        simpa [HasPrefix] using this
      · simp [HasPrefix, hab]

/-- The placeholder of another variable is copied unchanged. -/
theorem replaceFrom_other (key other new rest : Str) (hkey : braceFree key)
    (hother : braceFree other) (hne : other ≠ key) :
    replaceFrom (placeholder key) new 0 (placeholder other ++ rest) =
      placeholder other ++ replaceFrom (placeholder key) new 0 rest := by
  have h1 : HasPrefix ('\x7b' :: ('\x7b' :: (other ++ ['\x7d', '\x7d'] ++ rest)))
      (placeholder key) = false := by
    rw [placeholder_eq]
    simpa [HasPrefix] using closing_no_prefix key other rest hkey hother hne
  have h2 : HasPrefix ('\x7b' :: (other ++ ['\x7d', '\x7d'] ++ rest))
      (placeholder key) = false := by
    rw [placeholder_eq]
    cases other with
    | nil => simp [HasPrefix]
    | cons b bs =>
      have hb : ¬ b = '\x7b' := (hother b (List.mem_cons_self _ _)).1
      simp [HasPrefix, hb]
  have h3 : ∀ c ∈ other ++ ['\x7d', '\x7d'], c ≠ '\x7b' := by
    intro c hc
    rcases List.mem_append.mp hc with h | h
    · exact (hother c h).1
    · simp only [List.mem_cons, List.mem_singleton, List.not_mem_nil, or_false, or_self] at h
      rw [h]; decide
  have hsrc : placeholder other ++ rest
      = '\x7b' :: ('\x7b' :: (other ++ ['\x7d', '\x7d'] ++ rest)) := by
    rw [placeholder_eq]; simp
  rw [hsrc, replaceFrom_keep _ _ _ _ h1, replaceFrom_keep _ _ _ _ h2,
    replaceFrom_no_open key new _ rest h3, placeholder_eq other]
  simp

theorem placeholder_ne_nil (key : Str) : placeholder key ≠ [] := by
  rw [placeholder_eq]; simp

theorem templateOf_cons (p : Piece) (pieces : List Piece) :
    templateOf (p :: pieces) = p.source ++ templateOf pieces := by
  simp [templateOf]

/-- One `ReplaceAll` with the placeholder of `key` on a template of brace-free
pieces turns exactly the pieces that are the placeholder of `key` into the
value. -/
theorem replaceAll_pieces (key value : Str) (pieces : List Piece) (hkey : braceFree key)
    (hp : ∀ p ∈ pieces, braceFree p.body) :
    ReplaceAll (templateOf pieces) (placeholder key) value =
      templateOf (pieces.map (Piece.bind key value)) := by
  unfold ReplaceAll
  rw [if_neg (placeholder_ne_nil key)]
  induction pieces with
  | nil => rfl
  | cons p rest ih =>
    have hrest := ih (fun q hq => hp q (List.mem_cons_of_mem _ hq))
    have hbody := hp p (List.mem_cons_self _ _)
    rw [templateOf_cons, List.map_cons, templateOf_cons]
    cases p with
    | text t =>
      have ht : ∀ c ∈ t, c ≠ '\x7b' := fun c hc => (hbody c hc).1
      simp only [Piece.source, Piece.bind]
      rw [replaceFrom_no_open key value t _ ht, hrest]
    | var k =>
      by_cases hk : k = key
      · subst hk
        simp only [Piece.source, Piece.bind, if_true]
        rw [replaceFrom_match _ _ _ (placeholder_ne_nil k), hrest]
      · simp only [Piece.source, Piece.bind, hk, if_false]
        rw [replaceFrom_other key k value _ hkey hbody hk, hrest]

theorem bind_body (key value : Str) (pieces : List Piece) (hvalue : braceFree value)
    (hp : ∀ p ∈ pieces, braceFree p.body) :
    ∀ p ∈ pieces.map (Piece.bind key value), braceFree p.body := by
  intro p hmem
  obtain ⟨q, hq, rfl⟩ := List.mem_map.mp hmem
  cases q with
  | text t => exact hp _ hq
  | var k =>
    by_cases hk : k = key
    · simp only [Piece.bind, hk, if_true, Piece.body]
      exact hvalue
    · simp only [Piece.bind, hk, if_false]
      exact hp _ hq

theorem value_bind (key value : Str) (rest : List (Str × Str)) (p : Piece) :
    Piece.value rest (Piece.bind key value p) = Piece.value ((key, value) :: rest) p := by
  cases p with
  | text t => rfl
  | var k =>
    by_cases hk : k = key
    · subst hk
      simp [Piece.bind, Piece.value, mapGet]
    · have hk2 : ¬ key = k := fun h => hk h.symm
      simp [Piece.bind, Piece.value, mapGet, hk, hk2]

theorem interpolate_nil (pieces : List Piece) : interpolate [] pieces = templateOf pieces := by
  unfold interpolate templateOf
  have h : ∀ p : Piece, Piece.value [] p = p.source := by
    intro p
    cases p <;> rfl
  rw [show Piece.value [] = Piece.source from funext h]

/-- The loop of `RenderMessage` over bindings visited in the order `visited`,
on a template of brace-free pieces, computes the interpolation of the pieces. -/
theorem render_fold (visited : List (Str × Str)) (pieces : List Piece)
    (hv : ∀ kv ∈ visited, braceFree kv.1 ∧ braceFree kv.2)
    (hp : ∀ p ∈ pieces, braceFree p.body) :
    visited.foldl (fun message kv => ReplaceAll message (placeholder kv.1) kv.2)
        (templateOf pieces) = interpolate visited pieces := by
  induction visited generalizing pieces with
  | nil => exact (interpolate_nil pieces).symm
  | cons kv rest ih =>
    obtain ⟨k, v⟩ := kv
    have hkv := hv (k, v) (List.mem_cons_self _ _)
    simp only [List.foldl_cons]
    rw [replaceAll_pieces k v pieces hkv.1 hp,
      ih _ (fun q hq => hv q (List.mem_cons_of_mem _ hq)) (bind_body k v pieces hkv.2 hp)]
    unfold interpolate
    rw [List.map_map]
    congr 1
    apply List.map_congr_left
    intro p _
    exact value_bind k v rest p

theorem mapGet_some_iff {β : Type} (key : Str) (value : β) (m : List (Str × β))
    (hnd : (m.map Prod.fst).Nodup) : mapGet key m = some value ↔ (key, value) ∈ m := by
  constructor
  · exact mapGet_mem key value m
  · intro hmem
    induction m with
    | nil => cases hmem
    | cons kv rest ih =>
      obtain ⟨k, v⟩ := kv
      simp only [List.map_cons, List.nodup_cons] at hnd
      rcases List.mem_cons.mp hmem with h | h
      · injection h with h1 h2
        subst h1; subst h2
        simp [mapGet]
      · have hk : ¬ k = key := by
          intro hk
          subst hk
          exact hnd.1 (List.mem_map.mpr ⟨(k, value), h, rfl⟩)
        simp only [mapGet, hk, if_false]
        exact ih hnd.2 h

theorem mapGet_perm {β : Type} (key : Str) (m visited : List (Str × β))
    (hperm : visited.Perm m) (hnd : (m.map Prod.fst).Nodup) :
    mapGet key visited = mapGet key m := by
  have hnd2 : (visited.map Prod.fst).Nodup := (hperm.map Prod.fst).nodup_iff.mpr hnd
  cases h1 : mapGet key visited with
  | some v =>
    have := hperm.mem_iff.mp ((mapGet_some_iff key v visited hnd2).mp h1)
    exact ((mapGet_some_iff key v m hnd).mpr this).symm
  | none =>
    cases h2 : mapGet key m with
    | none => rfl
    | some v =>
      have := hperm.mem_iff.mpr ((mapGet_some_iff key v m hnd).mp h2)
      rw [(mapGet_some_iff key v visited hnd2).mpr this] at h1
      cases h1

/-- C16, as stated, fails: with the template "{{a}}" and the bindings a = "{{b}}",
b = "x", visited in that order, the value inserted for `a` is interpolated again
and the message rendered is "x", not "{{b}}"; visited in the other order it is
"{{b}}". -/
theorem render_reinterpolates_counterexample :
    CLIRenderer.RenderMessage id nestedNode nestedSession = "x".toList ∧
    CLIRenderer.RenderMessage id nestedNode nestedSession ≠ "\x7b\x7bb\x7d\x7d".toList ∧
    CLIRenderer.RenderMessage List.reverse nestedNode nestedSession
      = "\x7b\x7bb\x7d\x7d".toList := by
  decide

/-- C16, amended: on a template made of brace-free text and of placeholders
`{{k}}` with brace-free names, and bindings (one per name) whose names and values
contain no brace, `RenderMessage` returns the template in which every placeholder
of a bound variable is replaced by its value, once, and every placeholder without
a binding is left verbatim, in whatever order the bindings are visited. -/
theorem render_interpolates (order : List (Str × Str) → List (Str × Str)) (node : Node)
    (s : Session) (pieces : List Piece)
    (horder : (order s.Variables).Perm s.Variables)
    (hkeys : (s.Variables.map Prod.fst).Nodup)
    (htemplate : node.Message = templateOf pieces)
    (hpieces : ∀ p ∈ pieces, braceFree p.body)
    (hvars : ∀ kv ∈ s.Variables, braceFree kv.1 ∧ braceFree kv.2) :
    CLIRenderer.RenderMessage order node s = interpolate s.Variables pieces := by
  unfold CLIRenderer.RenderMessage
  rw [htemplate, render_fold (order s.Variables) pieces
    (fun kv hkv => hvars kv (horder.mem_iff.mp hkv)) hpieces]
  unfold interpolate
  congr 1
  apply List.map_congr_left
  intro p _
  cases p with
  | text t => rfl
  | var k => simp only [Piece.value, mapGet_perm k s.Variables _ horder hkeys]

/-- C16 amended, on "Hello {{name}}, age {{age}}" with the single binding
name = "Ann": the message rendered is "Hello Ann, age {{age}}". -/
theorem render_interpolates_witness :
    CLIRenderer.RenderMessage id helloNode
        { NewEngine with Variables := [("name".toList, "Ann".toList)] }
      = interpolate [("name".toList, "Ann".toList)] helloPieces ∧
    interpolate [("name".toList, "Ann".toList)] helloPieces
      = "Hello Ann, age \x7b\x7bage\x7d\x7d".toList :=
  ⟨render_interpolates id helloNode
      { NewEngine with Variables := [("name".toList, "Ann".toList)] } helloPieces
      (List.Perm.refl _) (by decide) (by decide) (by decide) (by decide),
    by decide⟩

/-! ## Consequences for the engine -/

theorem firstIntent_some_example (test : Str → Bool) (intents : List Intent) (name : Str)
    (h : firstIntent test intents = some name) :
    ∃ it ∈ intents, it.Name = name ∧ it.Examples ≠ [] := by
  induction intents with
  | nil => simp [firstIntent] at h
  | cons a rest ih =>
    simp only [firstIntent] at h
    split at h
    · rename_i hany
      injection h with h
      refine ⟨a, List.mem_cons_self _ _, h, ?_⟩
      intro hnil
      rw [hnil] at hany
      simp at hany
    · obtain ⟨it, hit, hname, hex⟩ := ih h
      exact ⟨it, List.mem_cons_of_mem _ hit, hname, hex⟩

/-- C22. `Route` only ever names a supplied intent: whenever `RuleRouter.Route`
succeeds, the name returned is the `Name` of an intent of the list that has at
least one example, so the search of the engine for the intent of that name finds
one. -/
theorem route_names_supplied_intent (lower : Char → Char) (input : Str)
    (intents : List Intent) (name : Str)
    (h : RuleRouter.Route lower input intents = .ok name) :
    (∃ it ∈ intents, it.Name = name ∧ it.Examples ≠ []) ∧
    (∃ intent, intents.find? (fun intent => decide (intent.Name = name)) = some intent ∧
      intent ∈ intents ∧ intent.Name = name) := by
  have hmem : ∃ it ∈ intents, it.Name = name ∧ it.Examples ≠ [] := by
    unfold RuleRouter.Route at h
    split at h
    · cases h
    · simp only at h
      split at h
      · rename_i n h1
        injection h with h
        subst h
        exact firstIntent_some_example _ _ _ h1
      · split at h
        · rename_i n h2
          injection h with h
          subst h
          exact firstIntent_some_example _ _ _ h2
        · split at h
          · rename_i n h3
            injection h with h
            subst h
            exact firstIntent_some_example _ _ _ h3
          · cases h
  refine ⟨hmem, ?_⟩
  obtain ⟨it, hit, hname, _⟩ := hmem
  exact find_named intents name ⟨it, hit, hname⟩

/-- C22 at the intents B: ["yx"], A: ["x"] and the input "x": the name returned,
A, is that of the second intent, which the search finds. -/
theorem route_names_supplied_intent_witness :
    (∃ it ∈ intentsBA, it.Name = "A".toList ∧ it.Examples ≠ []) ∧
    (∃ intent, intentsBA.find? (fun intent => decide (intent.Name = "A".toList))
        = some intent ∧ intent ∈ intentsBA ∧ intent.Name = "A".toList) :=
  route_names_supplied_intent asciiLower "x".toList intentsBA "A".toList (by decide)

theorem trimSpace_blank (input : Str) (hblank : ∀ c ∈ input, isSpace c = true) :
    TrimSpace input = [] := by
  have h : input.dropWhile isSpace = [] := by
    rw [List.dropWhile_eq_nil_iff]
    exact hblank
  simp [TrimSpace, h]

theorem substringTest_blank (lower : Char → Char) (ex : Str) :
    substringTest lower [] ex = true := by
  rw [substringTest_iff]
  exact Or.inr List.nil_infix

theorem exactTest_blank (lower : Char → Char) (ex : Str) :
    exactTest lower [] ex = true ↔ ex = [] := by
  rw [exactTest_iff]
  simp [ToLower]

/-- C23. Blank input always matches: when some intent has an example, `Route` on
an input that is empty or made of white space only succeeds; and when no example
is the empty string, it returns the name of the first intent, in authoring order,
whose example list is not empty. -/
theorem route_blank_input (lower : Char → Char) (input : Str) (intents : List Intent)
    (hblank : ∀ c ∈ input, isSpace c = true)
    (hex : ∃ it ∈ intents, it.Examples ≠ []) :
    (∃ name, RuleRouter.Route lower input intents = .ok name) ∧
    ((∀ it ∈ intents, ∀ e ∈ it.Examples, e ≠ []) →
      ∃ pre it post, intents = pre ++ it :: post ∧ it.Examples ≠ [] ∧
        (∀ j ∈ pre, j.Examples = []) ∧
        RuleRouter.Route lower input intents = .ok it.Name) := by
  have htrim : ToLower lower (TrimSpace input) = [] := by
    rw [trimSpace_blank input hblank]; rfl
  have hsome : ∃ it ∈ intents, ∃ e ∈ it.Examples, substringTest lower [] e = true := by
    obtain ⟨it, hit, hne⟩ := hex
    obtain ⟨e, he⟩ := List.exists_mem_of_ne_nil _ hne
    exact ⟨it, hit, e, he, substringTest_blank lower e⟩
  obtain ⟨pre, it, post, hsplit, hhas, hpre, hres⟩ := firstIntent_first _ _ hsome
  constructor
  · cases h1 : firstIntent (exactTest lower (ToLower lower (TrimSpace input))) intents with
    | some n => exact ⟨n, route_of_exact _ _ _ _ h1⟩
    | none =>
      refine ⟨it.Name, route_of_substring _ _ _ _ h1 ?_⟩
      rw [htrim]; exact hres
  · intro hnonempty
    have h1 : firstIntent (exactTest lower (ToLower lower (TrimSpace input))) intents
        = none := by
      rw [htrim, firstIntent_eq_none]
      intro j hj e he
      cases ht : exactTest lower [] e
      · rfl
      · exact absurd ((exactTest_blank lower e).mp ht) (hnonempty j hj e he)
    refine ⟨pre, it, post, hsplit, ?_, ?_, route_of_substring _ _ _ _ h1 (by rw [htrim]; exact hres)⟩
    · obtain ⟨e, he, _⟩ := hhas
      exact List.ne_nil_of_mem he
    · intro j hj
      cases hje : j.Examples with
      | nil => rfl
      | cons e es =>
        have := hpre j hj e (by rw [hje]; exact List.mem_cons_self _ _)
        rw [substringTest_blank] at this
        cases this

/-- C23 on an intent without examples followed by the intents A and B, and an
input of two spaces and a tab: the result is the first intent with an example. -/
theorem route_blank_input_witness :
    (∃ name, RuleRouter.Route asciiLower "  \t".toList
      ({ Name := "none".toList, Examples := [], Next := [] } :: intentsBA) = .ok name) ∧
    (∃ pre it post,
      ({ Name := "none".toList, Examples := [], Next := [] } :: intentsBA)
        = pre ++ it :: post ∧ it.Examples ≠ [] ∧
      (∀ j ∈ pre, j.Examples = []) ∧
      RuleRouter.Route asciiLower "  \t".toList
        ({ Name := "none".toList, Examples := [], Next := [] } :: intentsBA)
        = .ok it.Name) ∧
    RuleRouter.Route asciiLower "  \t".toList
      ({ Name := "none".toList, Examples := [], Next := [] } :: intentsBA)
      = .ok "B".toList :=
  have h := route_blank_input asciiLower "  \t".toList
    ({ Name := "none".toList, Examples := [], Next := [] } :: intentsBA) (by decide)
    ⟨{ Name := "B".toList, Examples := ["yx".toList], Next := [] }, by decide, by decide⟩
  ⟨h.1, h.2 (by decide), by decide⟩

/-! ## Termination of the loop -/

/-- The part of a pass after the read never touches standard input and ends in
the next pass or in an error. -/
theorem handleInput_outcome (ce : ConversationEngine) (clock : Nat) (node : Node)
    (message u : Str) (w : World) :
    (handleInput ce clock node message u w).1.stdin = w.stdin ∧
    ((handleInput ce clock node message u w).2 = .loop ∨
      ∃ e, (handleInput ce clock node message u w).2 = .done (.error e)) := by
  unfold handleInput
  cases hin : node.Input with
  | some inp =>
    simp only
    refine ⟨(captureBranch_session ce node inp u w).2.2, ?_⟩
    unfold captureBranch
    simp only
    rcases execActions u node.Actions (Engine.SetVariable w.session inp.SaveAs u)
      with ⟨s2, err⟩
    cases err with
    | some e => exact Or.inr ⟨_, rfl⟩
    | none =>
      simp only
      split
      · cases Engine.Transition ce.bot s2 node.Next with
        | error e => exact Or.inr ⟨_, rfl⟩
        | ok s3 => exact Or.inl rfl
      · exact Or.inl rfl
  | none =>
    simp only
    split
    · cases routeInput ce clock u node.Intents with
      | none => exact ⟨rfl, Or.inl rfl⟩
      | some name =>
        simp only
        rcases followIntent ce node name u w.session with ⟨s1, err⟩
        cases err with
        | some e => exact ⟨rfl, Or.inr ⟨_, rfl⟩⟩
        | none => exact ⟨rfl, Or.inl rfl⟩
    · split
      · rcases plainBranch ce node u w.session with ⟨s1, err⟩
        cases err with
        | some e => exact ⟨rfl, Or.inr ⟨_, rfl⟩⟩
        | none => exact ⟨rfl, Or.inl rfl⟩
      · exact ⟨rfl, Or.inl rfl⟩

/-- The three ways a pass ends: it goes on to the next pass having read exactly
one line; it returns success on a terminal node; or it returns an error. -/
theorem iteration_outcome (ce : ConversationEngine) (w : World) :
    ((iteration ce w).2 = .loop ∧ ∃ line, w.stdin = line :: (iteration ce w).1.stdin) ∨
    ((iteration ce w).2 = .done (.ok ()) ∧
      Engine.IsTerminal ce.bot (iteration ce w).1.session = .ok true) ∨
    ∃ e, (iteration ce w).2 = .done (.error e) := by
  cases hnode : Engine.GetCurrentNode ce.bot w.session with
  | error e =>
    refine Or.inr (Or.inr ⟨e, ?_⟩)
    simp only [iteration, hnode]
  | ok node =>
    by_cases hterm : node.Next = [] ∧ node.Intents = []
    · refine Or.inr (Or.inl ?_)
      rw [iteration_terminal ce w node hnode hterm.1 hterm.2]
      refine ⟨rfl, ?_⟩
      simp [Engine.IsTerminal, hnode, hterm.1, hterm.2]
    · cases hstdin : w.stdin with
      | nil =>
        have hT : Engine.IsTerminal ce.bot w.session = .ok false := by
          simp only [Engine.IsTerminal, hnode]
          congr 1
          by_cases h1 : node.Next = []
          · have h3 : node.Intents.length ≠ 0 := fun h =>
              hterm ⟨h1, List.length_eq_zero.mp h⟩
            simp [h1, h3]
          · simp [h1]
        refine Or.inr (Or.inr ⟨.ReadInput, ?_⟩)
        simp only [iteration, hnode, hT]
        by_cases hI : node.Intents.length > 0
        · simp [hI, CLIRenderer.ReadInput, hstdin]
        · simp [hI, CLIRenderer.ReadInput, hstdin]
      | cons line rest =>
        have hread := iteration_read ce w node line rest hnode hterm hstdin
        rw [hread]
        obtain ⟨h1, h2⟩ := handleInput_outcome ce w.stdin.length node
          (CLIRenderer.RenderMessage (ce.order w.stdin.length) node w.session)
          (TrimSpace line)
          { session := w.session, stdin := rest,
            stdout := (if node.Intents.length > 0 then
                w.stdout ++ [.message
                  (CLIRenderer.RenderMessage (ce.order w.stdin.length) node w.session)] ++
                  [.intents node.Intents]
              else
                w.stdout ++ [.message
                  (CLIRenderer.RenderMessage (ce.order w.stdin.length) node w.session)]) ++
              [.prompt] }
        rcases h2 with h2 | ⟨e, h2⟩
        · exact Or.inl ⟨h2, line, by rw [h1]⟩
        · exact Or.inr (Or.inr ⟨e, h2⟩)

/-- With more passes allowed than there are lines, the loop returns; the value
is success on a terminal node or an error, and allowing more passes changes
nothing. -/
theorem runLoop_total (ce : ConversationEngine) (fuel : Nat) (w : World)
    (hfuel : w.stdin.length < fuel) :
    (∃ result, (runLoop ce fuel w).2 = some result ∧
      (result = .ok () →
        Engine.IsTerminal ce.bot (runLoop ce fuel w).1.session = .ok true)) ∧
    (∀ more, fuel ≤ more → runLoop ce more w = runLoop ce fuel w) := by
  induction fuel generalizing w with
  | zero => exact absurd hfuel (Nat.not_lt_zero _)
  | succ n ih =>
    rcases iteration_outcome ce w with ⟨hloop, line, hline⟩ | ⟨hdone, hT⟩ | ⟨e, herr⟩
    · rcases hx : iteration ce w with ⟨w1, step⟩
      rw [hx] at hloop hline
      simp only at hloop hline
      subst hloop
      have hlen : w1.stdin.length < n := by
        rw [hline, List.length_cons] at hfuel
        omega
      obtain ⟨ih1, ih2⟩ := ih w1 hlen
      constructor
      · simpa only [runLoop, hx] using ih1
      · intro more hmore
        cases more with
        | zero => omega
        | succ m =>
          simp only [runLoop, hx]
          exact ih2 m (by omega)
    · rcases hx : iteration ce w with ⟨w1, step⟩
      rw [hx] at hdone hT
      simp only at hdone hT
      subst hdone
      constructor
      · simp only [runLoop, hx]
        exact ⟨.ok (), rfl, fun _ => hT⟩
      · intro more hmore
        cases more with
        | zero => omega
        | succ m => simp only [runLoop, hx]
    · rcases hx : iteration ce w with ⟨w1, step⟩
      rw [hx] at herr
      simp only at herr
      subst herr
      constructor
      · simp only [runLoop, hx]
        exact ⟨.error e, rfl, fun h => by cases h⟩
      · intro more hmore
        cases more with
        | zero => omega
        | succ m => simp only [runLoop, hx]

/-- C21. `Run` terminates on finite input: every pass of the loop either returns
or reads exactly one line; so on `n` lines `Run` returns within `n + 1` passes,
with success at a terminal node or with an error, and a loop allowed any larger
number of passes ends in the same state with the same value. -/
theorem run_terminates (ce : ConversationEngine) (w : World) :
    ((iteration ce w).2 = .loop → ∃ line, w.stdin = line :: (iteration ce w).1.stdin) ∧
    (∃ result, (ce.Run w).2 = some result ∧
      (result = .ok () ∨ ∃ e, result = .error e) ∧
      (result = .ok () → Engine.IsTerminal ce.bot (ce.Run w).1.session = .ok true)) ∧
    (∀ more, w.stdin.length + 1 ≤ more → runLoop ce more w = ce.Run w) := by
  obtain ⟨⟨result, h1, h2⟩, h3⟩ := runLoop_total ce (w.stdin.length + 1) w (Nat.lt_succ_self _)
  refine ⟨?_, ⟨result, h1, ?_, h2⟩, h3⟩
  · intro hloop
    rcases iteration_outcome ce w with ⟨_, hline⟩ | ⟨hdone, _⟩ | ⟨e, herr⟩
    · exact hline
    · rw [hloop] at hdone; cases hdone
    · rw [hloop] at herr; cases herr
  · cases result with
    | ok u => exact Or.inl rfl
    | error e => exact Or.inr ⟨e, rfl⟩

/-- C21 on the capture flow: with the line "Ann" the first pass reads it and goes
on, and the run succeeds at the terminal node `done`; without any line the run
ends in the read error; five passes allowed change nothing. -/
theorem run_terminates_witness :
    (∃ line, ["Ann".toList] =
      line :: (iteration nameEngine ⟨NewEngine, ["Ann".toList], []⟩).1.stdin) ∧
    (∃ result, (nameEngine.Run ⟨NewEngine, ["Ann".toList], []⟩).2 = some result ∧
      (result = .ok () ∨ ∃ e, result = .error e) ∧
      (result = .ok () →
        Engine.IsTerminal nameEngine.bot (nameEngine.Run ⟨NewEngine, ["Ann".toList], []⟩).1.session
          = .ok true)) ∧
    (nameEngine.Run ⟨NewEngine, ["Ann".toList], []⟩).2 = some (.ok ()) ∧
    (nameEngine.Run ⟨NewEngine, [], []⟩).2 = some (.error .ReadInput) ∧
    runLoop nameEngine 5 ⟨NewEngine, ["Ann".toList], []⟩
      = nameEngine.Run ⟨NewEngine, ["Ann".toList], []⟩ :=
  ⟨(run_terminates nameEngine ⟨NewEngine, ["Ann".toList], []⟩).1 (by decide),
    (run_terminates nameEngine ⟨NewEngine, ["Ann".toList], []⟩).2.1,
    by decide, by decide,
    (run_terminates nameEngine ⟨NewEngine, ["Ann".toList], []⟩).2.2 5 (by decide)⟩

/-! ## Rendering and the order of the bindings -/

theorem renderMessage_pieces (order : List (Str × Str) → List (Str × Str)) (node : Node)
    (s : Session) (pieces : List Piece)
    (horder : (order s.Variables).Perm s.Variables)
    (hkeys : (s.Variables.map Prod.fst).Nodup)
    (htemplate : node.Message = templateOf pieces)
    (hpieces : ∀ p ∈ pieces, braceFree p.body)
    (hvars : ∀ kv ∈ s.Variables, braceFree kv.1 ∧ braceFree kv.2) :
    CLIRenderer.RenderMessage order node s =
      (pieces.map (Piece.value s.Variables)).flatten := by
  unfold CLIRenderer.RenderMessage
  rw [htemplate, render_fold (order s.Variables) pieces
    (fun kv hkv => hvars kv (horder.mem_iff.mp hkv)) hpieces]
  unfold interpolate
  congr 1
  apply List.map_congr_left
  intro p _
  cases p with
  | text t => rfl
  | var k => simp only [Piece.value, mapGet_perm k s.Variables _ horder hkeys]

/-- C24, as stated, fails: with the template "{{a}}" and the bindings a = "{{b}}",
b = "x", visiting the bindings in stored order and in reverse order, both
permutations of the bindings, gives two different messages. -/
theorem render_order_counterexample :
    (id nestedSession.Variables).Perm nestedSession.Variables ∧
    (List.reverse nestedSession.Variables).Perm nestedSession.Variables ∧
    CLIRenderer.RenderMessage id nestedNode nestedSession ≠
      CLIRenderer.RenderMessage List.reverse nestedNode nestedSession :=
  ⟨List.Perm.refl _, List.reverse_perm _, by decide⟩

/-- C24, amended: rendering is independent of the binding order on brace-free
material. For every template made of brace-free text and of placeholders with
brace-free names, and every set of bindings (one per name) whose names and values
contain no brace, `RenderMessage` yields the same string for any two orders in
which the bindings are visited. -/
theorem render_order_independent (order1 order2 : List (Str × Str) → List (Str × Str))
    (node : Node) (s : Session) (pieces : List Piece)
    (horder1 : (order1 s.Variables).Perm s.Variables)
    (horder2 : (order2 s.Variables).Perm s.Variables)
    (hkeys : (s.Variables.map Prod.fst).Nodup)
    (htemplate : node.Message = templateOf pieces)
    (hpieces : ∀ p ∈ pieces, braceFree p.body)
    (hvars : ∀ kv ∈ s.Variables, braceFree kv.1 ∧ braceFree kv.2) :
    CLIRenderer.RenderMessage order1 node s = CLIRenderer.RenderMessage order2 node s := by
  rw [renderMessage_pieces order1 node s pieces horder1 hkeys htemplate hpieces hvars,
    renderMessage_pieces order2 node s pieces horder2 hkeys htemplate hpieces hvars]

/-- C24 amended, on "Hello {{name}}, age {{age}}" with name = "Ann" and
age = "30", visited in stored and in reverse order. -/
theorem render_order_independent_witness :
    CLIRenderer.RenderMessage id helloNode
        { NewEngine with
          Variables := [("name".toList, "Ann".toList), ("age".toList, "30".toList)] } =
      CLIRenderer.RenderMessage List.reverse helloNode
        { NewEngine with
          Variables := [("name".toList, "Ann".toList), ("age".toList, "30".toList)] } :=
  render_order_independent id List.reverse helloNode
    { NewEngine with
      Variables := [("name".toList, "Ann".toList), ("age".toList, "30".toList)] }
    helloPieces (List.Perm.refl _) (List.reverse_perm _) (by decide) (by decide) (by decide)
    (by decide)

end ChatbotGo
